import Mathlib

/-!
Verification of the node-buckets-mdapi connection pool (`lib/pool.js`) and
client RPC-context lifecycle (`lib/client.js`).

The JavaScript code is shallowly embedded as follows:

* `BorayConnection` / `BorayConnectionPool` mirror the structs in
  `lib/pool.js`.  JavaScript objects keyed by cueball connection keys become
  association lists `List (Nat × BorayConnection)`; the key set `mcp_avail`
  becomes a `List Nat`.
* Every `assert`/`assert.ok`/`assert.strictEqual` in the source is modelled
  as returning `none` (an invariant-violation fault aborts the program; it is
  not a recoverable result).
* `process.hrtime` timestamps become explicit `now : Nat` millisecond
  arguments; `jsprim.randElt` becomes an explicit `pick : Nat` choice index.
* The transport's `destroyed` flag is owned by the external transport
  collaborator; the event `destroyTransport` models it flipping to true.
* Ghost observation fields (they mirror side effects of the source, and are
  never read by the embedded operations themselves):
  `mc_rid` - a unique id per created record (records may share a cueball key
  over time, never an rid); `mc_ever_drained` - set when the record enters
  `MC_S_DRAIN`; `mcp_drain_log` - rids in the order `connDrain` moved them to
  `MC_S_DRAIN`; `mcp_release_log` - rids in the order `mc_hdl.release()` was
  invoked (the last line of `connDelete`); `mcp_deleted_conns` - the records
  at the moment `connDelete` discarded them.
-/

/-- Connection states, `lib/pool.js` lines 81-84. -/
inductive ConnState
  | MC_S_AVAIL
  | MC_S_DRAIN
  | MC_S_FALLBACK
  | MC_S_DELETED
deriving DecidableEq, Repr

/-- One logical connection, `BorayConnection` in `lib/pool.js` lines 92-103.
`mc_conn_destroyed` is the `destroyed` flag of the wrapped transport
(`mc_conn.destroyed`).  `mc_rid` and `mc_ever_drained` are ghost fields. -/
structure BorayConnection where
  mc_key : Nat
  mc_conn_destroyed : Bool
  mc_nreqs : Nat
  mc_state : ConnState
  mc_rid : Nat
  mc_ever_drained : Bool
deriving DecidableEq, Repr

/-- A single allocation of a connection, `BorayConnectionAllocation` in
`lib/pool.js` lines 111-114; it references its record by key. -/
structure BorayConnectionAllocation where
  mca_key : Nat
  mca_released : Bool
deriving DecidableEq, Repr

/-- The pool, `BorayConnectionPool` in `lib/pool.js` lines 124-179.
Fields after `mcp_nfallbacks` are ghost observation fields. -/
structure BorayConnectionPool where
  mcp_conns : List (Nat × BorayConnection)
  mcp_avail : List Nat
  mcp_fallback_enable : Bool
  mcp_conn_fallback : Option Nat
  mcp_conn_fallback_time : Option Nat
  mcp_nalloc_ok : Nat
  mcp_nalloc_fail : Nat
  mcp_nalloc_fallback : Nat
  mcp_nreleased : Nat
  mcp_nfallbacks : Nat
  mcp_next_rid : Nat
  mcp_drain_log : List Nat
  mcp_release_log : List Nat
  mcp_deleted_conns : List BorayConnection
deriving DecidableEq, Repr

/-- `BorayFallbackMaxTime`, `lib/pool.js` line 76. -/
def BorayFallbackMaxTime : Nat := 15 * 1000

/-- Lookup by key in an association list (JavaScript `obj[key]`). -/
def lookupKey {α : Type} : List (Nat × α) → Nat → Option α
  | [], _ => none
  | e :: rest, k => if e.1 = k then some e.2 else lookupKey rest k

/-- Update the value stored under a key (JavaScript mutation of the object
held in `obj[key]`). -/
def updateKey {α : Type} (l : List (Nat × α)) (k : Nat) (f : α → α) :
    List (Nat × α) :=
  l.map (fun e => if e.1 = k then (e.1, f e.2) else e)

/-- Remove a key (JavaScript `delete obj[key]`). -/
def removeKey {α : Type} (l : List (Nat × α)) (k : Nat) : List (Nat × α) :=
  l.filter (fun e => decide (e.1 ≠ k))

/-- Remove a key from a key set (JavaScript `delete set[key]`). -/
def eraseKey (l : List Nat) (k : Nat) : List Nat :=
  l.filter (fun a => decide (a ≠ k))

/-- State of the record currently stored under a key, if any. -/
def stateOf (p : BorayConnectionPool) (k : Nat) : Option ConnState :=
  (lookupKey p.mcp_conns k).map (·.mc_state)

/-- Outstanding-request count of the record stored under a key, if any. -/
def nreqsOf (p : BorayConnectionPool) (k : Nat) : Option Nat :=
  (lookupKey p.mcp_conns k).map (·.mc_nreqs)

/-- Transport-destroyed flag of the record stored under a key, if any. -/
def destroyedOf (p : BorayConnectionPool) (k : Nat) : Option Bool :=
  (lookupKey p.mcp_conns k).map (·.mc_conn_destroyed)

/-- The keys currently known to the pool (keys of `mcp_conns`). -/
def poolKeys (p : BorayConnectionPool) : List Nat :=
  p.mcp_conns.map (·.1)

/-- Ghost record ids of the records currently in `mcp_conns`. -/
def liveRids (p : BorayConnectionPool) : List Nat :=
  p.mcp_conns.map (·.2.mc_rid)

/-- Ghost record ids of the records `connDelete` has discarded. -/
def deletedRids (p : BorayConnectionPool) : List Nat :=
  p.mcp_deleted_conns.map (·.mc_rid)

/-- Number of records currently in `MC_S_FALLBACK` state. -/
def fallbackCount (p : BorayConnectionPool) : Nat :=
  p.mcp_conns.countP (fun e => decide (e.2.mc_state = ConnState.MC_S_FALLBACK))

/-- The state mutation `mconn.mc_state = MC_S_DRAIN` of `lib/pool.js` line
355, together with the ghost ever-drained flag. -/
def drainMark (c : BorayConnection) : BorayConnection :=
  { c with mc_state := ConnState.MC_S_DRAIN, mc_ever_drained := true }

/-- The state mutation `mconn.mc_state = MC_S_DELETED` of `lib/pool.js` line
386. -/
def delMark (c : BorayConnection) : BorayConnection :=
  { c with mc_state := ConnState.MC_S_DELETED }

/-- `mconn.mc_nreqs++` (`lib/pool.js` line 234). -/
def incReq (c : BorayConnection) : BorayConnection :=
  { c with mc_nreqs := c.mc_nreqs + 1 }

/-- `mconn.mc_nreqs--` (`lib/pool.js` line 255). -/
def decReq (c : BorayConnection) : BorayConnection :=
  { c with mc_nreqs := c.mc_nreqs - 1 }

/-- The state mutation `mconn.mc_state = MC_S_FALLBACK` of `lib/pool.js`
line 329. -/
def fallbackMark (c : BorayConnection) : BorayConnection :=
  { c with mc_state := ConnState.MC_S_FALLBACK }

/-- The transport's `destroyed` flag becoming true. -/
def destroyMark (c : BorayConnection) : BorayConnection :=
  { c with mc_conn_destroyed := true }

/-- The record built by `new BorayConnection(key, conn, hdl, log)`
(`lib/pool.js` lines 92-103): zero outstanding requests, state `MC_S_AVAIL`.
`rid` is the ghost record id. -/
def newConn (key : Nat) (destroyed : Bool) (rid : Nat) : BorayConnection :=
  { mc_key := key, mc_conn_destroyed := destroyed, mc_nreqs := 0,
    mc_state := ConnState.MC_S_AVAIL, mc_rid := rid,
    mc_ever_drained := false }

/-- `connDelete`, `lib/pool.js` lines 367-389: destroy a fully quiesced
connection.  The trailing `mc_hdl.release()` call is recorded in
`mcp_release_log`; the discarded record (marked `MC_S_DELETED`, line 386) is
recorded in `mcp_deleted_conns`. -/
def connDelete (p : BorayConnectionPool) (key : Nat) :
    Option BorayConnectionPool :=
  if key ∈ p.mcp_avail then none else
  match lookupKey p.mcp_conns key with
  | none => none
  | some mconn =>
    if mconn.mc_state ≠ ConnState.MC_S_DRAIN then none else
    if p.mcp_conn_fallback = some key then none else
    if mconn.mc_nreqs ≠ 0 then none else
    some { p with
      mcp_conns := removeKey p.mcp_conns key,
      mcp_deleted_conns := p.mcp_deleted_conns ++ [delMark mconn],
      mcp_release_log := p.mcp_release_log ++ [mconn.mc_rid] }

/-- `connDrain`, `lib/pool.js` lines 343-361: definitively remove a
connection from service; delete it now if it has no outstanding requests. -/
def connDrain (p : BorayConnectionPool) (key : Nat) :
    Option BorayConnectionPool :=
  if key ∈ p.mcp_avail then none else
  match lookupKey p.mcp_conns key with
  | none => none
  | some mconn =>
    if mconn.mc_state = ConnState.MC_S_AVAIL ∨
        mconn.mc_state = ConnState.MC_S_FALLBACK then
      let p1 := { p with
        mcp_conns := updateKey p.mcp_conns key drainMark,
        mcp_drain_log := p.mcp_drain_log ++ [mconn.mc_rid] }
      if mconn.mc_nreqs = 0 then connDelete p1 key else some p1
    else none

/-- `connFallbackRemove`, `lib/pool.js` lines 394-413: remove and drain the
fallback connection, if any. -/
def connFallbackRemove (p : BorayConnectionPool) :
    Option BorayConnectionPool :=
  match p.mcp_conn_fallback with
  | none => if p.mcp_conn_fallback_time = none then some p else none
  | some fkey =>
    if p.mcp_conn_fallback_time = none then none else
    match lookupKey p.mcp_conns fkey with
    | none => none
    | some mconn =>
      if mconn.mc_state ≠ ConnState.MC_S_FALLBACK then none else
      connDrain { p with
        mcp_conn_fallback := none,
        mcp_conn_fallback_time := none } fkey

/-- `connAdd`, `lib/pool.js` lines 276-292: a new connection from cueball
becomes a fresh `MC_S_AVAIL` record; any existing fallback is then removed
(reason `new connection`). -/
def connAdd (p : BorayConnectionPool) (key : Nat) (destroyed : Bool) :
    Option BorayConnectionPool :=
  if (lookupKey p.mcp_conns key).isSome then none else
  if key ∈ p.mcp_avail then none else
  let mconn : BorayConnection := newConn key destroyed p.mcp_next_rid
  connFallbackRemove { p with
    mcp_conns := p.mcp_conns ++ [(key, mconn)],
    mcp_avail := p.mcp_avail ++ [key],
    mcp_next_rid := p.mcp_next_rid + 1 }

/-- `connRetire`, `lib/pool.js` lines 304-335: cueball removed a connection
from service.  Drain it, unless it was the last available connection,
fallback is enabled and the transport is not destroyed, in which case it
becomes the fallback with `mcp_conn_fallback_time` set to the current time. -/
def connRetire (p : BorayConnectionPool) (key : Nat) (now : Nat) :
    Option BorayConnectionPool :=
  if key ∉ p.mcp_avail then none else
  match lookupKey p.mcp_conns key with
  | none => none
  | some mconn =>
    if mconn.mc_state ≠ ConnState.MC_S_AVAIL then none else
    let p1 := { p with mcp_avail := eraseKey p.mcp_avail key }
    if p1.mcp_avail ≠ [] ∨ p1.mcp_fallback_enable = false ∨
        mconn.mc_conn_destroyed then
      connDrain p1 key
    else
      if p1.mcp_conn_fallback ≠ none then none else
      if p1.mcp_conn_fallback_time ≠ none then none else
      some { p1 with
        mcp_conns := updateKey p1.mcp_conns key fallbackMark,
        mcp_nfallbacks := p1.mcp_nfallbacks + 1,
        mcp_conn_fallback := some key,
        mcp_conn_fallback_time := some now }

/-- Result of `connAlloc`: an allocation, or the `NoBackendsError` VError
(`lib/pool.js` lines 227-229). -/
inductive AllocResult
  | ok (aconn : BorayConnectionAllocation)
  | noBackends
deriving DecidableEq, Repr

/-- `connAlloc`, `lib/pool.js` lines 188-239.  `pick` stands for the random
choice of `jsprim.randElt`; `now` is the current time in milliseconds, so
`now - t` is `jsprim.hrtimeMillisec(process.hrtime(mcp_conn_fallback_time))`. -/
def connAlloc (p : BorayConnectionPool) (pick now : Nat) :
    Option (BorayConnectionPool × AllocResult) :=
  if 0 < p.mcp_avail.length then
    let key := p.mcp_avail.getD (pick % p.mcp_avail.length) 0
    match lookupKey p.mcp_conns key with
    | none => none
    | some mconn =>
      if mconn.mc_state ≠ ConnState.MC_S_AVAIL then none else
      some ({ p with
        mcp_conns := updateKey p.mcp_conns key incReq,
        mcp_nalloc_ok := p.mcp_nalloc_ok + 1 },
        AllocResult.ok { mca_key := key, mca_released := false })
  else
    match p.mcp_conn_fallback with
    | none =>
      some ({ p with mcp_nalloc_fail := p.mcp_nalloc_fail + 1 },
        AllocResult.noBackends)
    | some fkey =>
      match p.mcp_conn_fallback_time with
      | none => none
      | some t =>
        match lookupKey p.mcp_conns fkey with
        | none => none
        | some mconn =>
          if mconn.mc_state ≠ ConnState.MC_S_FALLBACK then none else
          if now - t > BorayFallbackMaxTime then
            match connFallbackRemove p with
            | none => none
            | some p1 =>
              some ({ p1 with mcp_nalloc_fail := p1.mcp_nalloc_fail + 1 },
                AllocResult.noBackends)
          else
            some ({ p with
              mcp_conns := updateKey p.mcp_conns fkey incReq,
              mcp_nalloc_fallback := p.mcp_nalloc_fallback + 1,
              mcp_nalloc_ok := p.mcp_nalloc_ok + 1 },
              AllocResult.ok { mca_key := fkey, mca_released := false })

/-- `connRelease`, `lib/pool.js` lines 245-270.  A double-release
(`mca_released` already true) is the fatal assertion on line 249.  Returns
the updated pool together with the handle marked released. -/
def connRelease (p : BorayConnectionPool) (aconn : BorayConnectionAllocation) :
    Option (BorayConnectionPool × BorayConnectionAllocation) :=
  if aconn.mca_released then none else
  match lookupKey p.mcp_conns aconn.mca_key with
  | none => none
  | some mconn =>
    if mconn.mc_nreqs = 0 then none else
    let p1 := { p with
      mcp_conns := updateKey p.mcp_conns aconn.mca_key decReq,
      mcp_nreleased := p.mcp_nreleased + 1 }
    let aconn1 := { aconn with mca_released := true }
    if mconn.mc_state = ConnState.MC_S_AVAIL then
      if aconn.mca_key ∈ p.mcp_avail then some (p1, aconn1) else none
    else
      if aconn.mca_key ∈ p.mcp_avail then none else
      if mconn.mc_state = ConnState.MC_S_DRAIN ∨
          mconn.mc_state = ConnState.MC_S_FALLBACK then
        if mconn.mc_state = ConnState.MC_S_DRAIN ∧ mconn.mc_nreqs - 1 = 0 then
          (connDelete p1 aconn.mca_key).map (fun p2 => (p2, aconn1))
        else some (p1, aconn1)
      else none

/-- `fallbackDisable`, `lib/pool.js` lines 419-423. -/
def fallbackDisable (p : BorayConnectionPool) : Option BorayConnectionPool :=
  connFallbackRemove { p with mcp_fallback_enable := false }

/-- The external transport collaborator destroys a connection's socket: its
`destroyed` flag (read by `connRetire`, line 317) becomes true.  The pool
itself is not notified. -/
def destroyTransport (p : BorayConnectionPool) (key : Nat) :
    BorayConnectionPool :=
  { p with mcp_conns := updateKey p.mcp_conns key destroyMark }

/-- Events driving the pool: the cueball `added`/`removed` events
(`lib/pool.js` lines 172-178), allocations, releases, and external transport
destruction. -/
inductive PoolEvent
  | added (key : Nat) (destroyed : Bool)
  | removed (key : Nat) (now : Nat)
  | alloc (pick : Nat) (now : Nat)
  | release (key : Nat)
  | destroy (key : Nat)
deriving DecidableEq, Repr

/-- Apply one event.  A `release k` event stands for a `connRelease` of one
not-yet-released allocation handle on key `k` (`connRelease` reads nothing
else from the handle). -/
def applyEvent (p : BorayConnectionPool) : PoolEvent → Option BorayConnectionPool
  | .added k d => connAdd p k d
  | .removed k now => connRetire p k now
  | .alloc pick now => (connAlloc p pick now).map (·.1)
  | .release k =>
    (connRelease p { mca_key := k, mca_released := false }).map (·.1)
  | .destroy k => some (destroyTransport p k)

/-- Run a sequence of events; `none` as soon as one faults. -/
def runEvents (p : BorayConnectionPool) : List PoolEvent → Option BorayConnectionPool
  | [] => some p
  | e :: rest =>
    match applyEvent p e with
    | none => none
    | some p1 => runEvents p1 rest

/-- The freshly constructed pool, `lib/pool.js` lines 157-170. -/
def initPool : BorayConnectionPool :=
  { mcp_conns := [], mcp_avail := [], mcp_fallback_enable := true,
    mcp_conn_fallback := none, mcp_conn_fallback_time := none,
    mcp_nalloc_ok := 0, mcp_nalloc_fail := 0, mcp_nalloc_fallback := 0,
    mcp_nreleased := 0, mcp_nfallbacks := 0, mcp_next_rid := 0,
    mcp_drain_log := [], mcp_release_log := [], mcp_deleted_conns := [] }

/-!
Client-level model, from `lib/client.js`.  The client owns the pool, a table
of active RPC contexts keyed by the monotonically increasing `ncontexts`
counter, and the shutdown state.  Asynchronous effects of the source are
modelled as ghost data: `scheduledCalls` records callbacks scheduled with
`setImmediate` (invoked later, never re-entrantly within the same call
stack); `finiScheduled` records a pending `setImmediate(closeFini)`;
`closeFiniRuns` counts invocations of `closeFini`; `detachLog` records the
contexts whose fast client `close()` detached.
-/

/-- `closeState` values, `lib/client.js` lines 43-44 (no other value is ever
assigned). -/
inductive BorayCloseState
  | BORAY_CS_OPEN
  | BORAY_CS_CLOSING
deriving DecidableEq, Repr

/-- The error a context-creation function can schedule for asynchronous
delivery to the user callback. -/
inductive SchedCallbackErr
  | clientClosed
  | noBackends
deriving DecidableEq, Repr

/-- The Boray client, `lib/client.js` lines 74-201 (the fields relevant to
context lifecycle and shutdown). -/
structure BorayClient where
  closeState : BorayCloseState
  nactive : Nat
  ncontexts : Nat
  activeContexts : List (Nat × BorayConnectionAllocation)
  nactiveAtClose : Option Nat
  pool : BorayConnectionPool
  scheduledCalls : List SchedCallbackErr
  finiScheduled : Bool
  closeFiniRuns : Nat
  detachLog : List Nat
deriving DecidableEq, Repr

/-- `closeFini`, `lib/client.js` lines 299-315: shutdown finalization.  Its
three entry assertions fault if violated; the cueball/resolver stop is an
external effect, so the model only counts the invocation. -/
def closeFini (c : BorayClient) : Option BorayClient :=
  if c.closeState ≠ BorayCloseState.BORAY_CS_CLOSING then none else
  if c.nactive ≠ 0 then none else
  if c.activeContexts ≠ [] then none else
  some { c with closeFiniRuns := c.closeFiniRuns + 1 }

/-- `close`, `lib/client.js` lines 260-297.  A second call is a warned
no-op.  Otherwise: record the closing state, disable the pool fallback,
then either schedule `closeFini` asynchronously (no outstanding requests) or
detach the fast client of every active context and wait for their releases. -/
def close (c : BorayClient) : Option BorayClient :=
  if c.closeState ≠ BorayCloseState.BORAY_CS_OPEN then some c else
  let c1 := { c with closeState := BorayCloseState.BORAY_CS_CLOSING,
                     nactiveAtClose := some c.nactive }
  match fallbackDisable c1.pool with
  | none => none
  | some pool1 =>
    let c2 := { c1 with pool := pool1 }
    if c2.nactive = 0 then some { c2 with finiScheduled := true }
    else some { c2 with detachLog := c2.detachLog ++ c2.activeContexts.map (·.1) }

/-- `ctxCreateCommon`, `lib/client.js` lines 462-480: wrap an allocated
connection in a fresh RPC context registered in `activeContexts`. -/
def ctxCreateCommon (c : BorayClient) (conn : BorayConnectionAllocation) :
    Option (BorayClient × Nat) :=
  if c.closeState ≠ BorayCloseState.BORAY_CS_OPEN then none else
  if (lookupKey c.activeContexts c.ncontexts).isSome then none else
  some ({ c with
    nactive := c.nactive + 1,
    ncontexts := c.ncontexts + 1,
    activeContexts := c.activeContexts ++ [(c.ncontexts, conn)] }, c.ncontexts)

/-- `ctxCreateForCallback`, `lib/client.js` lines 414-431.  On the closed or
no-backend paths the user callback is scheduled via `setImmediate` (recorded
in `scheduledCalls`) and `null` (here `none`) is returned as the context. -/
def ctxCreateForCallback (c : BorayClient) (pick now : Nat) :
    Option (BorayClient × Option Nat) :=
  if c.closeState ≠ BorayCloseState.BORAY_CS_OPEN then
    some ({ c with
      scheduledCalls := c.scheduledCalls ++ [SchedCallbackErr.clientClosed] },
      none)
  else
    match connAlloc c.pool pick now with
    | none => none
    | some (pool1, AllocResult.noBackends) =>
      some ({ c with
        pool := pool1,
        scheduledCalls := c.scheduledCalls ++ [SchedCallbackErr.noBackends] },
        none)
    | some (pool1, AllocResult.ok aconn) =>
      (ctxCreateCommon { c with pool := pool1 } aconn).map
        (fun ci => (ci.1, some ci.2))

/-- `ctxCreateForEmitter`, `lib/client.js` lines 441-455: as above, but on
failure it simply returns `null` (the caller synthesizes the error). -/
def ctxCreateForEmitter (c : BorayClient) (pick now : Nat) :
    Option (BorayClient × Option Nat) :=
  if c.closeState ≠ BorayCloseState.BORAY_CS_OPEN then some (c, none)
  else
    match connAlloc c.pool pick now with
    | none => none
    | some (pool1, AllocResult.noBackends) => some ({ c with pool := pool1 }, none)
    | some (pool1, AllocResult.ok aconn) =>
      (ctxCreateCommon { c with pool := pool1 } aconn).map
        (fun ci => (ci.1, some ci.2))

/-- `ctxRelease`, `lib/client.js` lines 486-497: release the context's pool
connection, drop it from `activeContexts`, and run `closeFini` if this was
the last active context of a closing client. -/
def ctxRelease (c : BorayClient) (id : Nat) : Option BorayClient :=
  if c.nactive = 0 then none else
  match lookupKey c.activeContexts id with
  | none => none
  | some aconn =>
    match connRelease c.pool aconn with
    | none => none
    | some (pool1, _) =>
      let c1 := { c with
        nactive := c.nactive - 1,
        activeContexts := removeKey c.activeContexts id,
        pool := pool1 }
      if c1.nactive = 0 ∧ c1.closeState = BorayCloseState.BORAY_CS_CLOSING
      then closeFini c1 else some c1

/-- Observable actions at RPC completion, in delivery order. -/
inductive RpcNotice
  | callerError
  | callerEnd
  | callerCallback
  | ctxReleased
deriving DecidableEq, Repr

/-- Whether an action is a completion/done notification delivered to the
original caller. -/
def isCallerNotice : RpcNotice → Bool
  | .callerError => true
  | .callerEnd => true
  | .callerCallback => true
  | .ctxReleased => false

/-- Whether an action is the release of the RPC context. -/
def isCtxReleased : RpcNotice → Bool
  | .ctxReleased => true
  | _ => false

/-- A trace satisfies "the context release runs before the caller is
notified" when, if both actions occur, the release comes first. -/
def releasedBeforeNotice (tr : List RpcNotice) : Bool :=
  match tr.findIdx? isCtxReleased, tr.findIdx? isCallerNotice with
  | some i, some j => decide (i < j)
  | _, _ => true

/-- Completion of a callback-convention RPC.  `makeReleaseCb`
(`lib/client.js` lines 506-512) wraps the user callback: when the RPC
completes, the wrapper first runs `ctxRelease` and then invokes the user
callback with the same arguments.  The returned list records the delivery
order of the observable actions at completion time. -/
def makeReleaseCbComplete (c : BorayClient) (id : Nat) :
    Option (BorayClient × List RpcNotice) :=
  (ctxRelease c id).map
    (fun c1 => (c1, [RpcNotice.ctxReleased, RpcNotice.callerCallback]))

/-- Completion of the emitter-convention `listBuckets` RPC
(`lib/buckets.js` lines 269-284 together with `releaseWhenDone`,
`lib/client.js` lines 521-534).  The `rpcCommon` completion callback first
emits `error` or `end` on the stream handed to the original caller - an
`EventEmitter.emit` delivers to the caller's listeners synchronously - and
only then emits the internal done event whose `releaseWhenDone` listener
runs `ctxRelease`. -/
def listBucketsComplete (c : BorayClient) (id : Nat) (err : Bool) :
    Option (BorayClient × List RpcNotice) :=
  (ctxRelease c id).map
    (fun c1 => (c1,
      [if err then RpcNotice.callerError else RpcNotice.callerEnd,
       RpcNotice.ctxReleased]))

/-!
Pool well-formedness.  `PoolWF` collects the state invariants of
`BorayConnectionPool` that the operations maintain; every field is a
decidable proposition so that concrete pools can be checked by `decide`.
-/

/-- Well-formedness of a pool state. -/
structure PoolWF (p : BorayConnectionPool) : Prop where
  keys_nodup : (poolKeys p).Nodup
  key_field : ∀ e ∈ p.mcp_conns, e.2.mc_key = e.1
  avail_state : ∀ k ∈ p.mcp_avail, stateOf p k = some ConnState.MC_S_AVAIL
  state_avail : ∀ e ∈ p.mcp_conns,
    e.2.mc_state = ConnState.MC_S_AVAIL → e.1 ∈ p.mcp_avail
  no_deleted : ∀ e ∈ p.mcp_conns, e.2.mc_state ≠ ConnState.MC_S_DELETED
  fb_time_iff : p.mcp_conn_fallback = none ↔ p.mcp_conn_fallback_time = none
  fb_state : ∀ k ∈ p.mcp_conn_fallback.toList,
    stateOf p k = some ConnState.MC_S_FALLBACK
  state_fb : ∀ e ∈ p.mcp_conns,
    e.2.mc_state = ConnState.MC_S_FALLBACK → p.mcp_conn_fallback = some e.1
  fb_avail : p.mcp_conn_fallback = none ∨ p.mcp_avail = []
  drain_pos : ∀ e ∈ p.mcp_conns,
    e.2.mc_state = ConnState.MC_S_DRAIN → 0 < e.2.mc_nreqs
  drained_flag : ∀ e ∈ p.mcp_conns,
    e.2.mc_state = ConnState.MC_S_DRAIN → e.2.mc_ever_drained = true
  deleted_ok : ∀ c ∈ p.mcp_deleted_conns,
    c.mc_state = ConnState.MC_S_DELETED ∧ c.mc_nreqs = 0 ∧
    c.mc_ever_drained = true
  rid_nodup : (liveRids p ++ deletedRids p).Nodup
  rid_lt : ∀ r ∈ liveRids p ++ deletedRids p, r < p.mcp_next_rid
  release_log_eq : p.mcp_release_log = deletedRids p

/-- The drain condition of `connRetire` (`lib/pool.js` lines 318-319): after
removing `k` from the available set, some other connection is available, or
fallback is disabled, or the transport reports itself destroyed. -/
def drainCond (p : BorayConnectionPool) (k : Nat) (c : BorayConnection) : Prop :=
  eraseKey p.mcp_avail k ≠ [] ∨ p.mcp_fallback_enable = false ∨
    c.mc_conn_destroyed = true

instance (p : BorayConnectionPool) (k : Nat) (c : BorayConnection) :
    Decidable (drainCond p k c) := by
  unfold drainCond; infer_instance

/-- The key carried by a successful allocation result. -/
def allocResultKey : AllocResult → Option Nat
  | .ok a => some a.mca_key
  | .noBackends => none

/-!
Concrete fixtures used by witnesses and counterexamples.
-/

/-- A default record for `Option.getD`. -/
def defaultConn : BorayConnection :=
  { mc_key := 0, mc_conn_destroyed := false, mc_nreqs := 0,
    mc_state := ConnState.MC_S_AVAIL, mc_rid := 0, mc_ever_drained := false }

/-- Events: a single connection is added, then removed as the last one. -/
def evsFallback : List PoolEvent := [.added 1 false, .removed 1 0]

/-- The pool after `evsFallback`: connection 1 is the fallback, since time 0. -/
def poolFallback : BorayConnectionPool :=
  (runEvents initPool evsFallback).getD initPool

/-- The fallback record of `poolFallback`. -/
def connFallbackRec : BorayConnection :=
  (lookupKey poolFallback.mcp_conns 1).getD defaultConn

/-- Events: two connections added, the first removed (and hence deleted,
having no outstanding requests). -/
def evsDrainDelete : List PoolEvent :=
  [.added 1 false, .added 2 false, .removed 1 0]

/-- The pool after `evsDrainDelete`. -/
def poolDrainDelete : BorayConnectionPool :=
  (runEvents initPool evsDrainDelete).getD initPool

/-- The pool with two available connections. -/
def poolTwoConns : BorayConnectionPool :=
  (runEvents initPool [.added 1 false, .added 2 false]).getD initPool

/-- The record for key 1 in `poolTwoConns`. -/
def retireTwoRec : BorayConnection :=
  (lookupKey poolTwoConns.mcp_conns 1).getD defaultConn

/-- `connRetire` of key 1 of `poolTwoConns` at time 5. -/
def retireTwoRes : BorayConnectionPool :=
  (connRetire poolTwoConns 1 5).getD initPool

/-- The pool with one available connection. -/
def poolOneConn : BorayConnectionPool :=
  (runEvents initPool [.added 1 false]).getD initPool

/-- An allocation from `poolOneConn`. -/
def allocOneRes : BorayConnectionPool × AllocResult :=
  (connAlloc poolOneConn 0 0).getD (initPool, AllocResult.noBackends)

/-- Events for claim C10: connection 1 is added, removed as the last one
(becoming the fallback), and then its transport is destroyed. -/
def evsDestroyedFallback : List PoolEvent :=
  [.added 1 false, .removed 1 0, .destroy 1]

/-- The (reachable) pool in which the fallback's transport is destroyed. -/
def poolDestroyedFallback : Option BorayConnectionPool :=
  runEvents initPool evsDestroyedFallback

/-- Allocation from `poolDestroyedFallback` at 100ms of fallback age. -/
def allocDestroyedRes : Option (BorayConnectionPool × AllocResult) :=
  poolDestroyedFallback.bind (fun p => connAlloc p 0 100)

/-- An open client with one outstanding RPC context (id 5, holding an
allocation of connection 1 from the pool `allocOneRes.1`). -/
def clientOpenOne : BorayClient :=
  { closeState := BorayCloseState.BORAY_CS_OPEN, nactive := 1, ncontexts := 6,
    activeContexts := [(5, { mca_key := 1, mca_released := false })],
    nactiveAtClose := none, pool := allocOneRes.1,
    scheduledCalls := [], finiScheduled := false, closeFiniRuns := 0,
    detachLog := [] }

/-- `clientOpenOne` after `close()`. -/
def clientClosedRes : BorayClient := (close clientOpenOne).getD clientOpenOne

/-- A client on which `close()` has completed its bookkeeping and that has
no outstanding contexts. -/
def clientAfterClose : BorayClient :=
  { clientOpenOne with
    closeState := BorayCloseState.BORAY_CS_CLOSING,
    nactive := 0, activeContexts := [], pool := poolOneConn }

/-!
Helper lemmas about the association-list operations.
-/

theorem lookupKey_mem {α : Type} :
    ∀ {l : List (Nat × α)} {k : Nat} {c : α},
      lookupKey l k = some c → (k, c) ∈ l := by
  intro l
  induction l with
  | nil => intro k c h; simp [lookupKey] at h
  | cons e rest ih =>
    intro k c h
    rw [lookupKey] at h
    split at h
    next heq =>
      injection h with h2
      subst heq; subst h2
      exact List.mem_cons_self e rest
    next hne =>
      exact List.mem_cons_of_mem _ (ih h)

theorem mem_lookupKey_nodup {α : Type} :
    ∀ {l : List (Nat × α)} {k : Nat} {c : α},
      (l.map (·.1)).Nodup → (k, c) ∈ l → lookupKey l k = some c := by
  intro l
  induction l with
  | nil => intro k c _ h; simp at h
  | cons e rest ih =>
    intro k c hnd h
    rw [List.map_cons, List.nodup_cons] at hnd
    rw [lookupKey]
    rcases List.mem_cons.mp h with h1 | h1
    · rw [← h1]
      simp
    · by_cases heq : e.1 = k
      · exfalso
        apply hnd.1
        rw [heq]
        exact List.mem_map.mpr ⟨(k, c), h1, rfl⟩
      · rw [if_neg heq]
        exact ih hnd.2 h1

theorem lookupKey_eq_none_iff {α : Type} {l : List (Nat × α)} {k : Nat} :
    lookupKey l k = none ↔ k ∉ l.map (·.1) := by
  induction l with
  | nil => simp [lookupKey]
  | cons e rest ih =>
    rw [lookupKey]
    by_cases heq : e.1 = k
    · simp [heq]
    · simp [heq, ih, Ne.symm heq]

theorem lookupKey_append_some {α : Type} {l l2 : List (Nat × α)} {k : Nat}
    {c : α} (h : lookupKey l k = some c) :
    lookupKey (l ++ l2) k = some c := by
  induction l with
  | nil => simp [lookupKey] at h
  | cons e rest ih =>
    rw [lookupKey] at h
    rw [List.cons_append, lookupKey]
    split at h
    next heq => rw [if_pos heq]; exact h
    next hne => rw [if_neg hne]; exact ih h

theorem lookupKey_append_none {α : Type} {l l2 : List (Nat × α)} {k : Nat}
    (h : lookupKey l k = none) :
    lookupKey (l ++ l2) k = lookupKey l2 k := by
  induction l with
  | nil => simp
  | cons e rest ih =>
    rw [lookupKey] at h
    split at h
    next => exact absurd h (by simp)
    next hne =>
      rw [List.cons_append, lookupKey, if_neg hne]
      exact ih h

theorem updateKey_nil {α : Type} (k : Nat) (f : α → α) :
    updateKey ([] : List (Nat × α)) k f = [] := rfl

theorem updateKey_cons {α : Type} (e : Nat × α) (l : List (Nat × α)) (k : Nat)
    (f : α → α) :
    updateKey (e :: l) k f =
      (if e.1 = k then (e.1, f e.2) else e) :: updateKey l k f := rfl

theorem lookupKey_updateKey_self {α : Type} :
    ∀ (l : List (Nat × α)) (k : Nat) (f : α → α),
      lookupKey (updateKey l k f) k = (lookupKey l k).map f := by
  intro l
  induction l with
  | nil => intro k f; rfl
  | cons e rest ih =>
    intro k f
    rw [updateKey_cons]
    by_cases heq : e.1 = k
    · rw [if_pos heq, lookupKey, if_pos heq, lookupKey, if_pos heq]
      rfl
    · rw [if_neg heq, lookupKey, if_neg heq, lookupKey, if_neg heq]
      exact ih k f

theorem lookupKey_updateKey_ne {α : Type} :
    ∀ (l : List (Nat × α)) (k : Nat) (f : α → α) (j : Nat), j ≠ k →
      lookupKey (updateKey l k f) j = lookupKey l j := by
  intro l
  induction l with
  | nil => intro k f j _; rfl
  | cons e rest ih =>
    intro k f j hjk
    rw [updateKey_cons]
    by_cases heq : e.1 = k
    · rw [if_pos heq, lookupKey, lookupKey]
      rw [if_neg (by rw [heq]; exact Ne.symm hjk),
        if_neg (by rw [heq]; exact Ne.symm hjk)]
      exact ih k f j hjk
    · rw [if_neg heq, lookupKey, lookupKey]
      by_cases hej : e.1 = j
      · rw [if_pos hej, if_pos hej]
      · rw [if_neg hej, if_neg hej]
        exact ih k f j hjk

theorem keys_updateKey {α : Type} :
    ∀ (l : List (Nat × α)) (k : Nat) (f : α → α),
      (updateKey l k f).map (·.1) = l.map (·.1) := by
  intro l
  induction l with
  | nil => intro k f; rfl
  | cons e rest ih =>
    intro k f
    rw [updateKey_cons, List.map_cons, List.map_cons, ih]
    by_cases heq : e.1 = k
    · rw [if_pos heq]
    · rw [if_neg heq]

theorem updateKey_map_snd {α β : Type} :
    ∀ (l : List (Nat × α)) (k : Nat) (f : α → α) (g : α → β),
      (∀ c, g (f c) = g c) →
      (updateKey l k f).map (fun e => g e.2) = l.map (fun e => g e.2) := by
  intro l
  induction l with
  | nil => intro k f g _; rfl
  | cons e rest ih =>
    intro k f g hf
    rw [updateKey_cons, List.map_cons, List.map_cons, ih k f g hf]
    by_cases heq : e.1 = k
    · rw [if_pos heq]
      simp [hf]
    · rw [if_neg heq]

theorem mem_updateKey_cases {α : Type} {l : List (Nat × α)} {k : Nat}
    {f : α → α} {e : Nat × α} (h : e ∈ updateKey l k f) :
    (e ∈ l ∧ e.1 ≠ k) ∨ ∃ c0, (k, c0) ∈ l ∧ e = (k, f c0) := by
  rcases List.mem_map.mp h with ⟨a, ha, hae⟩
  by_cases heq : a.1 = k
  · right
    refine ⟨a.2, ?_, ?_⟩
    · rw [← heq]; exact ha
    · rw [← hae, if_pos heq, heq]
  · left
    rw [← hae, if_neg heq]
    exact ⟨ha, heq⟩

theorem removeKey_nil {α : Type} (k : Nat) :
    removeKey ([] : List (Nat × α)) k = [] := rfl

theorem removeKey_cons {α : Type} (e : Nat × α) (l : List (Nat × α)) (k : Nat) :
    removeKey (e :: l) k =
      if e.1 = k then removeKey l k else e :: removeKey l k := by
  by_cases heq : e.1 = k
  · rw [if_pos heq]
    simp [removeKey, List.filter_cons, heq]
  · rw [if_neg heq]
    simp [removeKey, List.filter_cons, heq]

theorem mem_removeKey {α : Type} {l : List (Nat × α)} {k : Nat} {e : Nat × α} :
    e ∈ removeKey l k ↔ e ∈ l ∧ e.1 ≠ k := by
  simp [removeKey, List.mem_filter]

theorem removeKey_eq_self_of_not_mem {α : Type} {l : List (Nat × α)} {k : Nat}
    (h : k ∉ l.map (·.1)) : removeKey l k = l := by
  apply List.filter_eq_self.mpr
  intro e he
  simp only [decide_eq_true_eq]
  intro hek
  exact h (List.mem_map.mpr ⟨e, he, hek⟩)

theorem removeKey_updateKey_self {α : Type} :
    ∀ (l : List (Nat × α)) (k : Nat) (f : α → α),
      removeKey (updateKey l k f) k = removeKey l k := by
  intro l
  induction l with
  | nil => intro k f; rfl
  | cons e rest ih =>
    intro k f
    rw [updateKey_cons]
    by_cases heq : e.1 = k
    · rw [if_pos heq, removeKey_cons, removeKey_cons, if_pos heq, if_pos heq]
      exact ih k f
    · rw [if_neg heq, removeKey_cons, removeKey_cons, if_neg heq, if_neg heq,
        ih k f]

theorem lookupKey_removeKey_self {α : Type} (l : List (Nat × α)) (k : Nat) :
    lookupKey (removeKey l k) k = none := by
  rw [lookupKey_eq_none_iff]
  intro hmem
  rcases List.mem_map.mp hmem with ⟨e, he, hek⟩
  exact (mem_removeKey.mp he).2 hek

theorem lookupKey_removeKey_ne {α : Type} :
    ∀ (l : List (Nat × α)) (k j : Nat), j ≠ k →
      lookupKey (removeKey l k) j = lookupKey l j := by
  intro l
  induction l with
  | nil => intro k j _; rfl
  | cons e rest ih =>
    intro k j hjk
    rw [removeKey_cons]
    by_cases heq : e.1 = k
    · rw [if_pos heq, lookupKey, if_neg (by rw [heq]; exact Ne.symm hjk)]
      exact ih k j hjk
    · rw [if_neg heq, lookupKey, lookupKey]
      by_cases hej : e.1 = j
      · rw [if_pos hej, if_pos hej]
      · rw [if_neg hej, if_neg hej]
        exact ih k j hjk

theorem map_removeKey_sublist {α β : Type} (l : List (Nat × α)) (k : Nat)
    (g : Nat × α → β) :
    List.Sublist ((removeKey l k).map g) (l.map g) :=
  (List.filter_sublist l).map g

theorem mem_eraseKey {l : List Nat} {k a : Nat} :
    a ∈ eraseKey l k ↔ a ∈ l ∧ a ≠ k := by
  simp [eraseKey, List.mem_filter]

theorem perm_cons_removeKey {α : Type} :
    ∀ {l : List (Nat × α)} {k : Nat} {c : α},
      (l.map (·.1)).Nodup → lookupKey l k = some c →
      l.Perm ((k, c) :: removeKey l k) := by
  intro l
  induction l with
  | nil => intro k c _ h; simp [lookupKey] at h
  | cons e rest ih =>
    intro k c hnd h
    rw [List.map_cons, List.nodup_cons] at hnd
    rw [lookupKey] at h
    rw [removeKey_cons]
    split at h
    next heq =>
      injection h with h2
      rw [if_pos heq]
      have hk : k ∉ rest.map (·.1) := by rw [← heq]; exact hnd.1
      rw [removeKey_eq_self_of_not_mem hk]
      rw [← heq, ← h2]
    next hne =>
      rw [if_neg hne]
      exact ((ih hnd.2 h).cons e).trans (List.Perm.swap (k, c) e _)

theorem getD_mem_of_lt :
    ∀ (l : List Nat) (n : Nat), n < l.length → l.getD n 0 ∈ l := by
  intro l
  induction l with
  | nil => intro n h; simp at h
  | cons a rest ih =>
    intro n h
    cases n with
    | zero => simp
    | succ m =>
      rw [List.getD_cons_succ]
      exact List.mem_cons_of_mem _ (ih m (by simpa using h))

theorem getD_mod_mem (l : List Nat) (i : Nat) (h : 0 < l.length) :
    l.getD (i % l.length) 0 ∈ l :=
  getD_mem_of_lt l _ (Nat.mod_lt _ h)

theorem mem_option_toList {o : Option Nat} {j : Nat} :
    j ∈ o.toList ↔ o = some j := by
  cases o <;> simp [Option.toList, eq_comm]

theorem stateOf_eq_some_iff {p : BorayConnectionPool} {k : Nat}
    {s : ConnState} :
    stateOf p k = some s ↔
      ∃ c, lookupKey p.mcp_conns k = some c ∧ c.mc_state = s := by
  unfold stateOf
  cases h : lookupKey p.mcp_conns k <;> simp

/-!
Consequences of well-formedness: the two C1 properties.
-/

theorem fallbackCount_le_one (p : BorayConnectionPool) (hWF : PoolWF p) :
    fallbackCount p ≤ 1 := by
  rw [fallbackCount, List.countP_eq_length_filter]
  rcases hfl : p.mcp_conns.filter
      (fun e => decide (e.2.mc_state = ConnState.MC_S_FALLBACK)) with
    _ | ⟨x, _ | ⟨y, rest⟩⟩
  · simp [hfl]
  · simp [hfl]
  · exfalso
    have hx : x ∈ p.mcp_conns ∧ x.2.mc_state = ConnState.MC_S_FALLBACK := by
      have hm : x ∈ p.mcp_conns.filter
          (fun e => decide (e.2.mc_state = ConnState.MC_S_FALLBACK)) := by
        rw [hfl]; simp
      have := List.mem_filter.mp hm
      simpa using this
    have hy : y ∈ p.mcp_conns ∧ y.2.mc_state = ConnState.MC_S_FALLBACK := by
      have hm : y ∈ p.mcp_conns.filter
          (fun e => decide (e.2.mc_state = ConnState.MC_S_FALLBACK)) := by
        rw [hfl]; simp
      have := List.mem_filter.mp hm
      simpa using this
    have hxk := hWF.state_fb x hx.1 hx.2
    have hyk := hWF.state_fb y hy.1 hy.2
    have hkeq : x.1 = y.1 := by
      have := hxk.symm.trans hyk
      exact Option.some.inj this
    have hsub : List.Sublist
        ((p.mcp_conns.filter
          (fun e => decide (e.2.mc_state = ConnState.MC_S_FALLBACK))).map (·.1))
        (poolKeys p) :=
      (List.filter_sublist _).map _
    have hnd : ((x :: y :: rest).map (·.1)).Nodup := by
      rw [← hfl]
      exact List.Nodup.sublist hsub hWF.keys_nodup
    rw [List.map_cons, List.map_cons, List.nodup_cons] at hnd
    exact hnd.1 (by rw [hkeq]; simp)

theorem fb_pair_iff (p : BorayConnectionPool) (hWF : PoolWF p) :
    (p.mcp_conn_fallback ≠ none ∧ p.mcp_conn_fallback_time ≠ none) ↔
      ∃ e ∈ p.mcp_conns, e.2.mc_state = ConnState.MC_S_FALLBACK := by
  constructor
  · rintro ⟨hfb, -⟩
    rcases ho : p.mcp_conn_fallback with _ | k
    · exact absurd ho hfb
    · have := hWF.fb_state k (by rw [mem_option_toList, ho])
      rcases stateOf_eq_some_iff.mp this with ⟨c, hc, hcs⟩
      exact ⟨(k, c), lookupKey_mem hc, hcs⟩
  · rintro ⟨e, he, hes⟩
    have hfb := hWF.state_fb e he hes
    constructor
    · rw [hfb]; simp
    · intro ht
      have := hWF.fb_time_iff.mpr ht
      rw [this] at hfb
      exact Option.noConfusion hfb

/-!
Characterization and preservation lemmas for the pool operations.
-/

theorem connDelete_eq (p : BorayConnectionPool) (k : Nat) (c : BorayConnection)
    (hl : lookupKey p.mcp_conns k = some c)
    (hst : c.mc_state = ConnState.MC_S_DRAIN)
    (hn : c.mc_nreqs = 0)
    (hav : k ∉ p.mcp_avail)
    (hfb : p.mcp_conn_fallback ≠ some k) :
    connDelete p k = some { p with
      mcp_conns := removeKey p.mcp_conns k,
      mcp_deleted_conns := p.mcp_deleted_conns ++ [delMark c],
      mcp_release_log := p.mcp_release_log ++ [c.mc_rid] } := by
  simp only [connDelete, hl, if_neg hav]
  rw [if_neg (by simp [hst]), if_neg hfb, if_neg (by simp [hn])]

theorem connDelete_WF (p : BorayConnectionPool) (k : Nat) (c : BorayConnection)
    (hl : lookupKey p.mcp_conns k = some c)
    (hn : c.mc_nreqs = 0)
    (hed : c.mc_ever_drained = true)
    (hav : k ∉ p.mcp_avail)
    (hfb : p.mcp_conn_fallback ≠ some k)
    (hknd : (poolKeys p).Nodup)
    (hkey : ∀ e ∈ p.mcp_conns, e.2.mc_key = e.1)
    (havs : ∀ j ∈ p.mcp_avail, stateOf p j = some ConnState.MC_S_AVAIL)
    (hsa : ∀ e ∈ p.mcp_conns,
      e.2.mc_state = ConnState.MC_S_AVAIL → e.1 ∈ p.mcp_avail)
    (hndel : ∀ e ∈ p.mcp_conns, e.2.mc_state ≠ ConnState.MC_S_DELETED)
    (hfbt : p.mcp_conn_fallback = none ↔ p.mcp_conn_fallback_time = none)
    (hfbs : ∀ j ∈ p.mcp_conn_fallback.toList,
      stateOf p j = some ConnState.MC_S_FALLBACK)
    (hsf : ∀ e ∈ p.mcp_conns,
      e.2.mc_state = ConnState.MC_S_FALLBACK → p.mcp_conn_fallback = some e.1)
    (hfba : p.mcp_conn_fallback = none ∨ p.mcp_avail = [])
    (hdp : ∀ e ∈ p.mcp_conns,
      e.1 ≠ k → e.2.mc_state = ConnState.MC_S_DRAIN → 0 < e.2.mc_nreqs)
    (hdf : ∀ e ∈ p.mcp_conns,
      e.2.mc_state = ConnState.MC_S_DRAIN → e.2.mc_ever_drained = true)
    (hdel : ∀ d ∈ p.mcp_deleted_conns,
      d.mc_state = ConnState.MC_S_DELETED ∧ d.mc_nreqs = 0 ∧
      d.mc_ever_drained = true)
    (hrnd : (liveRids p ++ deletedRids p).Nodup)
    (hrlt : ∀ r ∈ liveRids p ++ deletedRids p, r < p.mcp_next_rid)
    (hrel : p.mcp_release_log = deletedRids p) :
    PoolWF { p with
      mcp_conns := removeKey p.mcp_conns k,
      mcp_deleted_conns := p.mcp_deleted_conns ++ [delMark c],
      mcp_release_log := p.mcp_release_log ++ [c.mc_rid] } := by
  have hperm : p.mcp_conns.Perm ((k, c) :: removeKey p.mcp_conns k) :=
    perm_cons_removeKey hknd hl
  have hridperm : (liveRids p).Perm
      (c.mc_rid :: (removeKey p.mcp_conns k).map (·.2.mc_rid)) := by
    have := hperm.map (·.2.mc_rid)
    simpa [liveRids] using this
  refine ⟨?_, ?_, ?_, ?_, ?_, ?_, ?_, ?_, ?_, ?_, ?_, ?_, ?_, ?_, ?_⟩
  · -- keys_nodup
    exact List.Nodup.sublist (map_removeKey_sublist p.mcp_conns k (·.1)) hknd
  · -- key_field
    intro e he
    exact hkey e (mem_removeKey.mp he).1
  · -- avail_state
    intro j hj
    have hjk : j ≠ k := fun h => hav (h ▸ hj)
    have := havs j hj
    rwa [stateOf, ← lookupKey_removeKey_ne p.mcp_conns k j hjk] at this
  · -- state_avail
    intro e he hes
    exact hsa e (mem_removeKey.mp he).1 hes
  · -- no_deleted
    intro e he
    exact hndel e (mem_removeKey.mp he).1
  · -- fb_time_iff
    exact hfbt
  · -- fb_state
    intro j hj
    rw [mem_option_toList] at hj
    have hjk : j ≠ k := fun h => hfb (h ▸ hj)
    have := hfbs j (mem_option_toList.mpr hj)
    rwa [stateOf, ← lookupKey_removeKey_ne p.mcp_conns k j hjk] at this
  · -- state_fb
    intro e he hes
    exact hsf e (mem_removeKey.mp he).1 hes
  · -- fb_avail
    exact hfba
  · -- drain_pos
    intro e he hes
    exact hdp e (mem_removeKey.mp he).1 (mem_removeKey.mp he).2 hes
  · -- drained_flag
    intro e he hes
    exact hdf e (mem_removeKey.mp he).1 hes
  · -- deleted_ok
    intro d hd
    rcases List.mem_append.mp hd with hd1 | hd1
    · exact hdel d hd1
    · have hdc : d = delMark c := by simpa using hd1
      rw [hdc]
      exact ⟨rfl, hn, hed⟩
  · -- rid_nodup
    have h1 : (liveRids p ++ deletedRids p).Perm
        ((c.mc_rid :: (removeKey p.mcp_conns k).map (·.2.mc_rid)) ++
          deletedRids p) :=
      hridperm.append_right _
    have h2 : ((c.mc_rid :: (removeKey p.mcp_conns k).map (·.2.mc_rid)) ++
        deletedRids p).Nodup := h1.nodup_iff.mp hrnd
    rw [List.cons_append, List.nodup_cons] at h2
    have hgoalperm :
        ((removeKey p.mcp_conns k).map (·.2.mc_rid) ++
          (deletedRids p ++ [c.mc_rid])).Perm
        (c.mc_rid :: ((removeKey p.mcp_conns k).map (·.2.mc_rid) ++
          deletedRids p)) := by
      rw [← List.append_assoc]
      exact List.perm_append_singleton _ _
    rw [show liveRids { p with
        mcp_conns := removeKey p.mcp_conns k,
        mcp_deleted_conns := p.mcp_deleted_conns ++ [delMark c],
        mcp_release_log := p.mcp_release_log ++ [c.mc_rid] } =
      (removeKey p.mcp_conns k).map (·.2.mc_rid) from rfl]
    rw [show deletedRids { p with
        mcp_conns := removeKey p.mcp_conns k,
        mcp_deleted_conns := p.mcp_deleted_conns ++ [delMark c],
        mcp_release_log := p.mcp_release_log ++ [c.mc_rid] } =
      deletedRids p ++ [c.mc_rid] from by simp [deletedRids, delMark]]
    exact hgoalperm.nodup_iff.mpr (List.nodup_cons.mpr ⟨h2.1, h2.2⟩)
  · -- rid_lt
    intro r hr
    apply hrlt
    rcases List.mem_append.mp hr with hr1 | hr1
    · apply List.mem_append.mpr
      left
      have : List.Sublist ((removeKey p.mcp_conns k).map (·.2.mc_rid))
          (liveRids p) := map_removeKey_sublist p.mcp_conns k _
      exact this.mem (by simpa [liveRids, deletedRids] using hr1)
    · have hr2 : r ∈ deletedRids p ++ [c.mc_rid] := by
        simpa [deletedRids] using hr1
      rcases List.mem_append.mp hr2 with hr3 | hr3
      · exact List.mem_append.mpr (Or.inr hr3)
      · have : r = c.mc_rid := by simpa using hr3
        rw [this]
        apply List.mem_append.mpr
        left
        exact List.mem_map.mpr ⟨(k, c), lookupKey_mem hl, rfl⟩
  · -- release_log_eq
    simp [deletedRids, hrel, delMark]

theorem connDrain_total (p : BorayConnectionPool) (k : Nat) (c : BorayConnection)
    (hl : lookupKey p.mcp_conns k = some c)
    (hst : c.mc_state = ConnState.MC_S_AVAIL ∨
      c.mc_state = ConnState.MC_S_FALLBACK)
    (hav : k ∉ p.mcp_avail)
    (hfbnone : p.mcp_conn_fallback = none)
    (hfbtnone : p.mcp_conn_fallback_time = none)
    (hknd : (poolKeys p).Nodup)
    (hkey : ∀ e ∈ p.mcp_conns, e.2.mc_key = e.1)
    (havs : ∀ j ∈ p.mcp_avail, stateOf p j = some ConnState.MC_S_AVAIL)
    (hsa : ∀ e ∈ p.mcp_conns, e.1 ≠ k →
      e.2.mc_state = ConnState.MC_S_AVAIL → e.1 ∈ p.mcp_avail)
    (hndel : ∀ e ∈ p.mcp_conns, e.2.mc_state ≠ ConnState.MC_S_DELETED)
    (hsf : ∀ e ∈ p.mcp_conns, e.1 ≠ k →
      e.2.mc_state ≠ ConnState.MC_S_FALLBACK)
    (hdp : ∀ e ∈ p.mcp_conns,
      e.2.mc_state = ConnState.MC_S_DRAIN → 0 < e.2.mc_nreqs)
    (hdf : ∀ e ∈ p.mcp_conns,
      e.2.mc_state = ConnState.MC_S_DRAIN → e.2.mc_ever_drained = true)
    (hdel : ∀ d ∈ p.mcp_deleted_conns,
      d.mc_state = ConnState.MC_S_DELETED ∧ d.mc_nreqs = 0 ∧
      d.mc_ever_drained = true)
    (hrnd : (liveRids p ++ deletedRids p).Nodup)
    (hrlt : ∀ r ∈ liveRids p ++ deletedRids p, r < p.mcp_next_rid)
    (hrel : p.mcp_release_log = deletedRids p) :
    ∃ p', connDrain p k = some p' ∧ PoolWF p' ∧
      p'.mcp_avail = p.mcp_avail ∧
      p'.mcp_conn_fallback = none ∧
      p'.mcp_conn_fallback_time = none ∧
      p'.mcp_fallback_enable = p.mcp_fallback_enable ∧
      p'.mcp_next_rid = p.mcp_next_rid ∧
      p'.mcp_drain_log = p.mcp_drain_log ++ [c.mc_rid] ∧
      (c.mc_nreqs = 0 →
        p'.mcp_conns = removeKey p.mcp_conns k ∧
        p'.mcp_release_log = p.mcp_release_log ++ [c.mc_rid] ∧
        p'.mcp_deleted_conns = p.mcp_deleted_conns ++ [delMark (drainMark c)]) ∧
      (c.mc_nreqs ≠ 0 →
        p'.mcp_conns = updateKey p.mcp_conns k drainMark ∧
        p'.mcp_release_log = p.mcp_release_log ∧
        p'.mcp_deleted_conns = p.mcp_deleted_conns) := by
  have hp1l : lookupKey (updateKey p.mcp_conns k drainMark) k =
      some (drainMark c) := by
    rw [lookupKey_updateKey_self, hl]
    rfl
  have hp1rids : (updateKey p.mcp_conns k drainMark).map (·.2.mc_rid) =
      p.mcp_conns.map (·.2.mc_rid) :=
    updateKey_map_snd p.mcp_conns k _ (fun c0 => c0.mc_rid) (fun c0 => rfl)
  have hfb1 : p.mcp_conn_fallback ≠ some k := by
    rw [hfbnone]
    exact fun h => Option.noConfusion h
  have hknd1 : ((updateKey p.mcp_conns k drainMark).map (·.1)).Nodup := by
    rw [keys_updateKey]
    exact hknd
  have hkey1 : ∀ e ∈ updateKey p.mcp_conns k drainMark, e.2.mc_key = e.1 := by
    intro e he
    rcases mem_updateKey_cases he with ⟨he1, _⟩ | ⟨c0, hc0, rfl⟩
    · exact hkey e he1
    · exact hkey (k, c0) hc0
  have havs1 : ∀ j ∈ p.mcp_avail,
      (lookupKey (updateKey p.mcp_conns k drainMark) j).map (·.mc_state) =
        some ConnState.MC_S_AVAIL := by
    intro j hj
    have hjk : j ≠ k := fun h => hav (h ▸ hj)
    rw [lookupKey_updateKey_ne p.mcp_conns k _ j hjk]
    exact havs j hj
  have hsa1 : ∀ e ∈ updateKey p.mcp_conns k drainMark,
      e.2.mc_state = ConnState.MC_S_AVAIL → e.1 ∈ p.mcp_avail := by
    intro e he hes
    rcases mem_updateKey_cases he with ⟨he1, hne⟩ | ⟨c0, hc0, rfl⟩
    · exact hsa e he1 hne hes
    · exact absurd hes (by simp [drainMark])
  have hndel1 : ∀ e ∈ updateKey p.mcp_conns k drainMark,
      e.2.mc_state ≠ ConnState.MC_S_DELETED := by
    intro e he
    rcases mem_updateKey_cases he with ⟨he1, _⟩ | ⟨c0, hc0, rfl⟩
    · exact hndel e he1
    · simp [drainMark]
  have hfbt1 : p.mcp_conn_fallback = none ↔ p.mcp_conn_fallback_time = none := by
    simp [hfbnone, hfbtnone]
  have hfbs1 : ∀ j ∈ p.mcp_conn_fallback.toList,
      (lookupKey (updateKey p.mcp_conns k drainMark) j).map (·.mc_state) =
        some ConnState.MC_S_FALLBACK := by
    intro j hj
    rw [hfbnone] at hj
    simp [Option.toList] at hj
  have hsf1 : ∀ e ∈ updateKey p.mcp_conns k drainMark,
      e.2.mc_state = ConnState.MC_S_FALLBACK →
      p.mcp_conn_fallback = some e.1 := by
    intro e he hes
    rcases mem_updateKey_cases he with ⟨he1, hne⟩ | ⟨c0, hc0, rfl⟩
    · exact absurd hes (hsf e he1 hne)
    · exact absurd hes (by simp [drainMark])
  have hdp1r : ∀ e ∈ updateKey p.mcp_conns k drainMark, e.1 ≠ k →
      e.2.mc_state = ConnState.MC_S_DRAIN → 0 < e.2.mc_nreqs := by
    intro e he hne hes
    rcases mem_updateKey_cases he with ⟨he1, _⟩ | ⟨c0, hc0, rfl⟩
    · exact hdp e he1 hes
    · exact absurd rfl hne
  have hdf1 : ∀ e ∈ updateKey p.mcp_conns k drainMark,
      e.2.mc_state = ConnState.MC_S_DRAIN → e.2.mc_ever_drained = true := by
    intro e he hes
    rcases mem_updateKey_cases he with ⟨he1, _⟩ | ⟨c0, hc0, rfl⟩
    · exact hdf e he1 hes
    · rfl
  have hrnd1 : ((updateKey p.mcp_conns k drainMark).map (·.2.mc_rid) ++
      deletedRids p).Nodup := by
    rw [hp1rids]
    exact hrnd
  have hrlt1 : ∀ r ∈ (updateKey p.mcp_conns k drainMark).map (·.2.mc_rid) ++
      deletedRids p, r < p.mcp_next_rid := by
    rw [hp1rids]
    exact hrlt
  by_cases hn : c.mc_nreqs = 0
  · -- no outstanding requests: deleted immediately
    refine ⟨{ p with
      mcp_conns := removeKey p.mcp_conns k,
      mcp_drain_log := p.mcp_drain_log ++ [c.mc_rid],
      mcp_release_log := p.mcp_release_log ++ [c.mc_rid],
      mcp_deleted_conns := p.mcp_deleted_conns ++ [delMark (drainMark c)] },
      ?_, ?_, rfl, hfbnone, hfbtnone, rfl, rfl, rfl,
      fun _ => ⟨rfl, rfl, rfl⟩, fun hn2 => absurd hn hn2⟩
    · simp only [connDrain, hl, if_neg hav, if_pos hst]
      rw [if_pos hn]
      rw [connDelete_eq { p with
          mcp_conns := updateKey p.mcp_conns k drainMark,
          mcp_drain_log := p.mcp_drain_log ++ [c.mc_rid] } k (drainMark c)
        hp1l rfl hn hav hfb1]
      rw [removeKey_updateKey_self]
      rfl
    · have hwf := connDelete_WF { p with
          mcp_conns := updateKey p.mcp_conns k drainMark,
          mcp_drain_log := p.mcp_drain_log ++ [c.mc_rid] } k
        (drainMark c) hp1l hn rfl hav hfb1 hknd1 hkey1 havs1 hsa1 hndel1
        hfbt1 hfbs1 hsf1 (Or.inl hfbnone) hdp1r hdf1 hdel hrnd1 hrlt1 hrel
      rwa [removeKey_updateKey_self] at hwf
  · -- outstanding requests: stays in MC_S_DRAIN
    refine ⟨{ p with
      mcp_conns := updateKey p.mcp_conns k drainMark,
      mcp_drain_log := p.mcp_drain_log ++ [c.mc_rid] },
      ?_, ?_, rfl, hfbnone, hfbtnone, rfl, rfl, rfl,
      fun hn2 => absurd hn2 hn, fun _ => ⟨rfl, rfl, rfl⟩⟩
    · simp only [connDrain, hl, if_neg hav, if_pos hst]
      rw [if_neg hn]
    · refine ⟨hknd1, hkey1, havs1, hsa1, hndel1, hfbt1, hfbs1, hsf1,
        Or.inl hfbnone, ?_, hdf1, hdel, hrnd1, hrlt1, hrel⟩
      intro e he hes
      rcases mem_updateKey_cases he with ⟨he1, _⟩ | ⟨c0, hc0, rfl⟩
      · exact hdp e he1 hes
      · show 0 < (drainMark c0).mc_nreqs
        have hc0c : c0 = c := by
          have := mem_lookupKey_nodup hknd hc0
          rw [hl] at this
          exact (Option.some.inj this).symm
        rw [hc0c]
        exact Nat.pos_of_ne_zero hn

theorem connFallbackRemove_none (p : BorayConnectionPool)
    (h : p.mcp_conn_fallback = none)
    (ht : p.mcp_conn_fallback_time = none) :
    connFallbackRemove p = some p := by
  simp [connFallbackRemove, h, ht]

theorem connFallbackRemove_total (p : BorayConnectionPool) (f : Nat)
    (cf : BorayConnection) (t : Nat)
    (hf : p.mcp_conn_fallback = some f)
    (ht : p.mcp_conn_fallback_time = some t)
    (hcf : lookupKey p.mcp_conns f = some cf)
    (hcfs : cf.mc_state = ConnState.MC_S_FALLBACK)
    (hfav : f ∉ p.mcp_avail)
    (hknd : (poolKeys p).Nodup)
    (hkey : ∀ e ∈ p.mcp_conns, e.2.mc_key = e.1)
    (havs : ∀ j ∈ p.mcp_avail, stateOf p j = some ConnState.MC_S_AVAIL)
    (hsa : ∀ e ∈ p.mcp_conns,
      e.2.mc_state = ConnState.MC_S_AVAIL → e.1 ∈ p.mcp_avail)
    (hndel : ∀ e ∈ p.mcp_conns, e.2.mc_state ≠ ConnState.MC_S_DELETED)
    (hsf : ∀ e ∈ p.mcp_conns,
      e.2.mc_state = ConnState.MC_S_FALLBACK → p.mcp_conn_fallback = some e.1)
    (hdp : ∀ e ∈ p.mcp_conns,
      e.2.mc_state = ConnState.MC_S_DRAIN → 0 < e.2.mc_nreqs)
    (hdf : ∀ e ∈ p.mcp_conns,
      e.2.mc_state = ConnState.MC_S_DRAIN → e.2.mc_ever_drained = true)
    (hdel : ∀ d ∈ p.mcp_deleted_conns,
      d.mc_state = ConnState.MC_S_DELETED ∧ d.mc_nreqs = 0 ∧
      d.mc_ever_drained = true)
    (hrnd : (liveRids p ++ deletedRids p).Nodup)
    (hrlt : ∀ r ∈ liveRids p ++ deletedRids p, r < p.mcp_next_rid)
    (hrel : p.mcp_release_log = deletedRids p) :
    ∃ p', connFallbackRemove p = some p' ∧ PoolWF p' ∧
      p'.mcp_avail = p.mcp_avail ∧
      p'.mcp_conn_fallback = none ∧
      p'.mcp_conn_fallback_time = none ∧
      p'.mcp_fallback_enable = p.mcp_fallback_enable ∧
      p'.mcp_next_rid = p.mcp_next_rid ∧
      p'.mcp_drain_log = p.mcp_drain_log ++ [cf.mc_rid] ∧
      (cf.mc_nreqs = 0 →
        p'.mcp_conns = removeKey p.mcp_conns f ∧
        p'.mcp_release_log = p.mcp_release_log ++ [cf.mc_rid] ∧
        p'.mcp_deleted_conns = p.mcp_deleted_conns ++ [delMark (drainMark cf)]) ∧
      (cf.mc_nreqs ≠ 0 →
        p'.mcp_conns = updateKey p.mcp_conns f drainMark ∧
        p'.mcp_release_log = p.mcp_release_log ∧
        p'.mcp_deleted_conns = p.mcp_deleted_conns) := by
  have hsf3 : ∀ e ∈ p.mcp_conns, e.1 ≠ f →
      e.2.mc_state ≠ ConnState.MC_S_FALLBACK := by
    intro e he hne hes
    have := hsf e he hes
    rw [hf] at this
    exact hne (Option.some.inj this).symm
  rcases connDrain_total { p with
      mcp_conn_fallback := none,
      mcp_conn_fallback_time := none } f cf hcf (Or.inr hcfs) hfav rfl rfl
    hknd hkey havs (fun e he _ hes => hsa e he hes) hndel hsf3 hdp hdf hdel
    hrnd hrlt hrel with
    ⟨p', heq, hwf, havail, hfb, hfbt, hen, hnr, hdrain, hzero, hpos⟩
  refine ⟨p', ?_, hwf, havail, hfb, hfbt, hen, hnr, hdrain, hzero, hpos⟩
  simp only [connFallbackRemove, hf, hcf]
  rw [if_neg (by simp [ht]), if_neg (by simp [hcfs])]
  exact heq

theorem connAdd_total (p : BorayConnectionPool) (k : Nat) (d : Bool)
    (hWF : PoolWF p)
    (hfresh : lookupKey p.mcp_conns k = none) :
    ∃ p', connAdd p k d = some p' ∧ PoolWF p' ∧
      stateOf p' k = some ConnState.MC_S_AVAIL ∧
      k ∈ p'.mcp_avail ∧
      p'.mcp_conn_fallback = none ∧
      p'.mcp_conn_fallback_time = none ∧
      (∀ f cf, p.mcp_conn_fallback = some f →
        lookupKey p.mcp_conns f = some cf →
        p'.mcp_drain_log = p.mcp_drain_log ++ [cf.mc_rid] ∧
        (cf.mc_nreqs = 0 → stateOf p' f = none ∧
          cf.mc_rid ∈ p'.mcp_release_log) ∧
        (cf.mc_nreqs ≠ 0 → stateOf p' f = some ConnState.MC_S_DRAIN ∧
          p'.mcp_release_log = p.mcp_release_log)) := by
  have hkav : k ∉ p.mcp_avail := by
    intro hk
    rcases stateOf_eq_some_iff.mp (hWF.avail_state k hk) with ⟨c, hc, _⟩
    rw [hfresh] at hc
    exact Option.noConfusion hc
  have hkkeys : k ∉ poolKeys p := lookupKey_eq_none_iff.mp hfresh
  have hc1 : ¬ ((lookupKey p.mcp_conns k).isSome = true) := by
    rw [hfresh]
    simp
  have heqAdd : connAdd p k d = connFallbackRemove { p with
      mcp_conns := p.mcp_conns ++ [(k,
        newConn k d p.mcp_next_rid)],
      mcp_avail := p.mcp_avail ++ [k],
      mcp_next_rid := p.mcp_next_rid + 1 } := by
    rw [connAdd, if_neg hc1, if_neg hkav]
  have hl2k : lookupKey (p.mcp_conns ++ [(k,
      newConn k d p.mcp_next_rid)]) k =
      some (newConn k d p.mcp_next_rid) := by
    rw [lookupKey_append_none hfresh]
    simp [lookupKey]
  have hknd2 : ((p.mcp_conns ++ [(k,
      newConn k d p.mcp_next_rid)]).map (·.1)).Nodup := by
    rw [List.map_append, List.nodup_append]
    refine ⟨hWF.keys_nodup, by simp, ?_⟩
    intro a ha hb
    simp at hb
    rw [hb] at ha
    exact hkkeys ha
  have hkey2 : ∀ e ∈ p.mcp_conns ++ [(k,
      newConn k d p.mcp_next_rid)], e.2.mc_key = e.1 := by
    intro e he
    rcases List.mem_append.mp he with h1 | h1
    · exact hWF.key_field e h1
    · have : e = (k, newConn k d p.mcp_next_rid) := by simpa using h1
      rw [this]
      rfl
  have hnotrid : p.mcp_next_rid ∉ liveRids p ++ deletedRids p := by
    intro hmem
    exact absurd (hWF.rid_lt _ hmem) (lt_irrefl _)
  have hrid2 : (p.mcp_conns ++ [(k,
      newConn k d p.mcp_next_rid)]).map (·.2.mc_rid) =
      liveRids p ++ [p.mcp_next_rid] := by
    rw [List.map_append]
    rfl
  have hrnd2 : ((p.mcp_conns ++ [(k,
      newConn k d p.mcp_next_rid)]).map (·.2.mc_rid) ++
      deletedRids p).Nodup := by
    rw [hrid2, List.append_assoc]
    have hperm : (liveRids p ++ ([p.mcp_next_rid] ++ deletedRids p)).Perm
        (p.mcp_next_rid :: (liveRids p ++ deletedRids p)) := by
      rw [show [p.mcp_next_rid] ++ deletedRids p =
        p.mcp_next_rid :: deletedRids p from rfl]
      exact List.perm_middle
    exact hperm.nodup_iff.mpr (List.nodup_cons.mpr ⟨hnotrid, hWF.rid_nodup⟩)
  have hrlt2 : ∀ r ∈ (p.mcp_conns ++ [(k,
      newConn k d p.mcp_next_rid)]).map (·.2.mc_rid) ++
      deletedRids p, r < p.mcp_next_rid + 1 := by
    rw [hrid2]
    intro r hr
    rcases List.mem_append.mp hr with h1 | h1
    · rcases List.mem_append.mp h1 with h2 | h2
      · exact Nat.lt_succ_of_lt (hWF.rid_lt r (List.mem_append.mpr (Or.inl h2)))
      · have : r = p.mcp_next_rid := by simpa using h2
        rw [this]
        exact Nat.lt_succ_self _
    · exact Nat.lt_succ_of_lt (hWF.rid_lt r (List.mem_append.mpr (Or.inr h1)))
  rcases hfb : p.mcp_conn_fallback with _ | f
  · -- no fallback: connFallbackRemove is a no-op
    have htime : p.mcp_conn_fallback_time = none := hWF.fb_time_iff.mp hfb
    refine ⟨_, heqAdd.trans (connFallbackRemove_none _ hfb htime), ?_, ?_, ?_,
      hfb, htime, ?_⟩
    · refine ⟨hknd2, hkey2, ?_, ?_, ?_, ?_, ?_, ?_, ?_, ?_, ?_,
        hWF.deleted_ok, hrnd2, hrlt2, hWF.release_log_eq⟩
      · intro j hj
        rcases List.mem_append.mp hj with h1 | h1
        · rcases stateOf_eq_some_iff.mp (hWF.avail_state j h1) with ⟨c, hc, hcs⟩
          simp only [stateOf]
          rw [lookupKey_append_some hc]
          simp [hcs]
        · have : j = k := by simpa using h1
          rw [this]
          simp only [stateOf]
          rw [hl2k]
          rfl
      · intro e he hes
        rcases List.mem_append.mp he with h1 | h1
        · exact List.mem_append.mpr (Or.inl (hWF.state_avail e h1 hes))
        · have he1 : e = (k, newConn k d p.mcp_next_rid) := by simpa using h1
          rw [he1]
          exact List.mem_append.mpr (Or.inr (by simp))
      · intro e he
        rcases List.mem_append.mp he with h1 | h1
        · exact hWF.no_deleted e h1
        · have : e = (k, newConn k d p.mcp_next_rid) := by simpa using h1
          rw [this]
          simp [newConn]
      · simp [hfb, htime]
      · intro j hj
        rw [mem_option_toList] at hj
        rw [show ({ p with
          mcp_conns := p.mcp_conns ++ [(k,
            newConn k d p.mcp_next_rid)],
          mcp_avail := p.mcp_avail ++ [k],
          mcp_next_rid := p.mcp_next_rid + 1 } :
            BorayConnectionPool).mcp_conn_fallback =
          p.mcp_conn_fallback from rfl, hfb] at hj
        exact absurd hj (by simp)
      · intro e he hes
        rcases List.mem_append.mp he with h1 | h1
        · have := hWF.state_fb e h1 hes
          rw [hfb] at this
          exact absurd this (by simp)
        · have : e = (k, newConn k d p.mcp_next_rid) := by simpa using h1
          rw [this] at hes
          exact absurd hes (by simp [newConn])
      · exact Or.inl hfb
      · intro e he hes
        rcases List.mem_append.mp he with h1 | h1
        · exact hWF.drain_pos e h1 hes
        · have : e = (k, newConn k d p.mcp_next_rid) := by simpa using h1
          rw [this] at hes
          exact absurd hes (by simp [newConn])
      · intro e he hes
        rcases List.mem_append.mp he with h1 | h1
        · exact hWF.drained_flag e h1 hes
        · have : e = (k, newConn k d p.mcp_next_rid) := by simpa using h1
          rw [this] at hes
          exact absurd hes (by simp [newConn])
    · simp only [stateOf]
      rw [hl2k]
      rfl
    · exact List.mem_append.mpr (Or.inr (by simp))
    · intro f cf hf
      exact absurd hf (by simp)
  · -- a fallback exists: it is removed and drained
    rcases stateOf_eq_some_iff.mp
        (hWF.fb_state f (mem_option_toList.mpr hfb)) with ⟨cf, hcf, hcfs⟩
    rcases htt : p.mcp_conn_fallback_time with _ | t
    · exact absurd (hWF.fb_time_iff.mpr htt) (by rw [hfb]; simp)
    have hfk : f ≠ k := by
      intro h
      rw [h, hfresh] at hcf
      exact Option.noConfusion hcf
    have havailnil : p.mcp_avail = [] :=
      hWF.fb_avail.resolve_left (by rw [hfb]; simp)
    have hfav2 : f ∉ p.mcp_avail ++ [k] := by
      rw [havailnil]
      simp [hfk]
    have havs2 : ∀ j ∈ p.mcp_avail ++ [k],
        (lookupKey (p.mcp_conns ++ [(k,
          newConn k d p.mcp_next_rid)]) j).map (·.mc_state) =
          some ConnState.MC_S_AVAIL := by
      intro j hj
      rw [havailnil] at hj
      have : j = k := by simpa using hj
      rw [this, hl2k]
      rfl
    have hsa2 : ∀ e ∈ p.mcp_conns ++ [(k,
        newConn k d p.mcp_next_rid)],
        e.2.mc_state = ConnState.MC_S_AVAIL → e.1 ∈ p.mcp_avail ++ [k] := by
      intro e he hes
      rcases List.mem_append.mp he with h1 | h1
      · exact List.mem_append.mpr (Or.inl (hWF.state_avail e h1 hes))
      · have : e = (k, newConn k d p.mcp_next_rid) := by simpa using h1
        rw [this]
        exact List.mem_append.mpr (Or.inr (by simp))
    have hndel2 : ∀ e ∈ p.mcp_conns ++ [(k,
        newConn k d p.mcp_next_rid)],
        e.2.mc_state ≠ ConnState.MC_S_DELETED := by
      intro e he
      rcases List.mem_append.mp he with h1 | h1
      · exact hWF.no_deleted e h1
      · have : e = (k, newConn k d p.mcp_next_rid) := by simpa using h1
        rw [this]
        simp [newConn]
    have hsf2 : ∀ e ∈ p.mcp_conns ++ [(k,
        newConn k d p.mcp_next_rid)],
        e.2.mc_state = ConnState.MC_S_FALLBACK →
        p.mcp_conn_fallback = some e.1 := by
      intro e he hes
      rcases List.mem_append.mp he with h1 | h1
      · exact hWF.state_fb e h1 hes
      · have : e = (k, newConn k d p.mcp_next_rid) := by simpa using h1
        rw [this] at hes
        exact absurd hes (by simp [newConn])
    have hdp2 : ∀ e ∈ p.mcp_conns ++ [(k,
        newConn k d p.mcp_next_rid)],
        e.2.mc_state = ConnState.MC_S_DRAIN → 0 < e.2.mc_nreqs := by
      intro e he hes
      rcases List.mem_append.mp he with h1 | h1
      · exact hWF.drain_pos e h1 hes
      · have : e = (k, newConn k d p.mcp_next_rid) := by simpa using h1
        rw [this] at hes
        exact absurd hes (by simp [newConn])
    have hdf2 : ∀ e ∈ p.mcp_conns ++ [(k,
        newConn k d p.mcp_next_rid)],
        e.2.mc_state = ConnState.MC_S_DRAIN → e.2.mc_ever_drained = true := by
      intro e he hes
      rcases List.mem_append.mp he with h1 | h1
      · exact hWF.drained_flag e h1 hes
      · have : e = (k, newConn k d p.mcp_next_rid) := by simpa using h1
        rw [this] at hes
        exact absurd hes (by simp [newConn])
    rcases connFallbackRemove_total { p with
        mcp_conns := p.mcp_conns ++ [(k,
          newConn k d p.mcp_next_rid)],
        mcp_avail := p.mcp_avail ++ [k],
        mcp_next_rid := p.mcp_next_rid + 1 } f cf t hfb htt
      (lookupKey_append_some hcf) hcfs hfav2 hknd2 hkey2 havs2 hsa2 hndel2
      hsf2 hdp2 hdf2 hWF.deleted_ok hrnd2 hrlt2 hWF.release_log_eq with
      ⟨p', heqFR, hwf, havail', hfb', hfbt', hen', hnr', hdrain', hzero', hpos'⟩
    refine ⟨p', heqAdd.trans heqFR, hwf, ?_, ?_, hfb', hfbt', ?_⟩
    · by_cases hn : cf.mc_nreqs = 0
      · rcases hzero' hn with ⟨hconns', _, _⟩
        show (lookupKey p'.mcp_conns k).map (·.mc_state) = _
        rw [hconns', lookupKey_removeKey_ne _ f k (Ne.symm hfk), hl2k]
        rfl
      · rcases hpos' hn with ⟨hconns', _, _⟩
        show (lookupKey p'.mcp_conns k).map (·.mc_state) = _
        rw [hconns', lookupKey_updateKey_ne _ f drainMark k (Ne.symm hfk),
          hl2k]
        rfl
    · rw [havail']
      exact List.mem_append.mpr (Or.inr (by simp))
    · intro f0 cf0 hf0 hcf0
      have hf0f : f0 = f := (Option.some.inj hf0).symm
      rw [hf0f] at hcf0
      have hcf0cf : cf0 = cf := by
        rw [hcf] at hcf0
        exact (Option.some.inj hcf0).symm
      rw [hf0f, hcf0cf]
      refine ⟨hdrain', ?_, ?_⟩
      · intro hn
        rcases hzero' hn with ⟨hconns', hrel', _⟩
        constructor
        · show (lookupKey p'.mcp_conns f).map (·.mc_state) = none
          rw [hconns', lookupKey_removeKey_self]
          rfl
        · rw [hrel']
          exact List.mem_append.mpr (Or.inr (by simp))
      · intro hn
        rcases hpos' hn with ⟨hconns', hrel', _⟩
        constructor
        · show (lookupKey p'.mcp_conns f).map (·.mc_state) = _
          rw [hconns', lookupKey_updateKey_self, lookupKey_append_some hcf]
          rfl
        · exact hrel'

theorem connAdd_WF (p : BorayConnectionPool) (k : Nat) (d : Bool)
    (p' : BorayConnectionPool) (hWF : PoolWF p)
    (h : connAdd p k d = some p') : PoolWF p' := by
  cases hfresh : lookupKey p.mcp_conns k with
  | some c =>
    rw [connAdd, if_pos (by rw [hfresh]; rfl)] at h
    exact Option.noConfusion h
  | none =>
    rcases connAdd_total p k d hWF hfresh with ⟨p'', heq, hwf, -⟩
    rw [heq] at h
    exact (Option.some.inj h) ▸ hwf

theorem connDelete_drainLog (p : BorayConnectionPool) (k : Nat)
    (p' : BorayConnectionPool) (h : connDelete p k = some p') :
    p'.mcp_drain_log = p.mcp_drain_log := by
  rw [connDelete] at h
  split at h
  · exact Option.noConfusion h
  · split at h
    · exact Option.noConfusion h
    · split at h
      · exact Option.noConfusion h
      · split at h
        · exact Option.noConfusion h
        · split at h
          · exact Option.noConfusion h
          · rw [← Option.some.inj h]

theorem connDrain_logs (p : BorayConnectionPool) (k : Nat)
    (p' : BorayConnectionPool) (h : connDrain p k = some p') :
    ∃ c, lookupKey p.mcp_conns k = some c ∧
      p'.mcp_drain_log = p.mcp_drain_log ++ [c.mc_rid] := by
  rw [connDrain] at h
  split at h
  · exact Option.noConfusion h
  · split at h
    · exact Option.noConfusion h
    · next c hl =>
      split at h
      · split at h
        · refine ⟨c, hl, ?_⟩
          rw [connDelete_drainLog _ _ _ h]
        · refine ⟨c, hl, ?_⟩
          rw [← Option.some.inj h]
      · exact Option.noConfusion h

theorem not_mem_eraseKey_self (l : List Nat) (k : Nat) : k ∉ eraseKey l k :=
  fun h => (mem_eraseKey.mp h).2 rfl

theorem connRetire_WF (p : BorayConnectionPool) (k now : Nat)
    (p' : BorayConnectionPool) (hWF : PoolWF p)
    (h : connRetire p k now = some p') : PoolWF p' := by
  rw [connRetire] at h
  split at h
  · exact Option.noConfusion h
  next h1 =>
    have hkav : k ∈ p.mcp_avail := not_not.mp h1
    have hfbnone : p.mcp_conn_fallback = none := by
      rcases hWF.fb_avail with h2 | h2
      · exact h2
      · rw [h2] at hkav
        exact absurd hkav (by simp)
    split at h
    · exact Option.noConfusion h
    next c hl =>
      split at h
      · exact Option.noConfusion h
      next hcs2 =>
        have hcs : c.mc_state = ConnState.MC_S_AVAIL := not_not.mp hcs2
        simp only [] at h
        split at h
        next hcond =>
          -- drain branch
          rcases connDrain_total { p with mcp_avail := eraseKey p.mcp_avail k }
              k c hl (Or.inl hcs) (not_mem_eraseKey_self _ _) hfbnone
              (hWF.fb_time_iff.mp hfbnone) hWF.keys_nodup hWF.key_field
              (fun j hj => hWF.avail_state j (mem_eraseKey.mp hj).1)
              (fun e he hne hes =>
                mem_eraseKey.mpr ⟨hWF.state_avail e he hes, hne⟩)
              hWF.no_deleted
              (fun e he hne hes => by
                have := hWF.state_fb e he hes
                rw [hfbnone] at this
                exact Option.noConfusion this)
              hWF.drain_pos hWF.drained_flag hWF.deleted_ok hWF.rid_nodup
              hWF.rid_lt hWF.release_log_eq with
            ⟨p'', heq, hwf, -⟩
          rw [heq] at h
          exact (Option.some.inj h) ▸ hwf
        next hcond =>
          -- fallback branch
          push_neg at hcond
          have hnil : eraseKey p.mcp_avail k = [] := hcond.1
          split at h
          · exact Option.noConfusion h
          · split at h
            · exact Option.noConfusion h
            · have hmr : (updateKey p.mcp_conns k fallbackMark).map
                  (·.2.mc_rid) = p.mcp_conns.map (·.2.mc_rid) :=
                updateKey_map_snd p.mcp_conns k fallbackMark
                  (fun c0 => c0.mc_rid) (fun c0 => rfl)
              rw [← Option.some.inj h]
              refine ⟨?_, ?_, ?_, ?_, ?_, ?_, ?_, ?_, ?_, ?_, ?_,
                hWF.deleted_ok, ?_, ?_, hWF.release_log_eq⟩
              · show ((updateKey p.mcp_conns k fallbackMark).map (·.1)).Nodup
                rw [keys_updateKey]
                exact hWF.keys_nodup
              · intro e he
                rcases mem_updateKey_cases he with ⟨he1, _⟩ | ⟨c0, hc0, rfl⟩
                · exact hWF.key_field e he1
                · exact hWF.key_field (k, c0) hc0
              · intro j hj
                rw [show ({ p with
                    mcp_avail := eraseKey p.mcp_avail k,
                    mcp_conns := updateKey p.mcp_conns k fallbackMark,
                    mcp_nfallbacks := p.mcp_nfallbacks + 1,
                    mcp_conn_fallback := some k,
                    mcp_conn_fallback_time := some now } :
                    BorayConnectionPool).mcp_avail =
                  eraseKey p.mcp_avail k from rfl, hnil] at hj
                exact absurd hj (by simp)
              · intro e he hes
                rcases mem_updateKey_cases he with ⟨he1, hne⟩ | ⟨c0, hc0, rfl⟩
                · exact mem_eraseKey.mpr ⟨hWF.state_avail e he1 hes, hne⟩
                · exact absurd hes (by simp [fallbackMark])
              · intro e he
                rcases mem_updateKey_cases he with ⟨he1, _⟩ | ⟨c0, hc0, rfl⟩
                · exact hWF.no_deleted e he1
                · simp [fallbackMark]
              · simp
              · intro j hj
                rw [mem_option_toList] at hj
                have hjk : j = k := by
                  have : some k = some j := hj
                  exact (Option.some.inj this).symm
                rw [hjk]
                simp only [stateOf]
                show ((lookupKey (updateKey p.mcp_conns k fallbackMark) k).map
                  (·.mc_state)) = some ConnState.MC_S_FALLBACK
                rw [lookupKey_updateKey_self, hl]
                rfl
              · intro e he hes
                rcases mem_updateKey_cases he with ⟨he1, hne⟩ | ⟨c0, hc0, rfl⟩
                · have := hWF.state_fb e he1 hes
                  rw [hfbnone] at this
                  exact Option.noConfusion this
                · rfl
              · exact Or.inr hnil
              · intro e he hes
                rcases mem_updateKey_cases he with ⟨he1, _⟩ | ⟨c0, hc0, rfl⟩
                · exact hWF.drain_pos e he1 hes
                · exact absurd hes (by simp [fallbackMark])
              · intro e he hes
                rcases mem_updateKey_cases he with ⟨he1, _⟩ | ⟨c0, hc0, rfl⟩
                · exact hWF.drained_flag e he1 hes
                · exact absurd hes (by simp [fallbackMark])
              · show ((updateKey p.mcp_conns k fallbackMark).map (·.2.mc_rid) ++
                  deletedRids p).Nodup
                rw [hmr]
                exact hWF.rid_nodup
              · show ∀ r ∈ (updateKey p.mcp_conns k fallbackMark).map
                  (·.2.mc_rid) ++ deletedRids p, r < p.mcp_next_rid
                rw [hmr]
                exact hWF.rid_lt

theorem connAlloc_WF (p : BorayConnectionPool) (pick now : Nat)
    (pr : BorayConnectionPool × AllocResult) (hWF : PoolWF p)
    (h : connAlloc p pick now = some pr) : PoolWF pr.1 := by
  rw [connAlloc] at h
  split at h
  next hlen =>
    -- an available connection is picked
    simp only [] at h
    split at h
    · exact Option.noConfusion h
    next c hl =>
      split at h
      · exact Option.noConfusion h
      next hcs2 =>
        have hcs := not_not.mp hcs2
        have hkmem : p.mcp_avail.getD (pick % p.mcp_avail.length) 0 ∈
            p.mcp_avail := getD_mod_mem _ pick hlen
        have hfbnone : p.mcp_conn_fallback = none := by
          rcases hWF.fb_avail with h2 | h2
          · exact h2
          · rw [h2] at hlen
            exact absurd hlen (by simp)
        have hmr : (updateKey p.mcp_conns
            (p.mcp_avail.getD (pick % p.mcp_avail.length) 0) incReq).map
            (·.2.mc_rid) = p.mcp_conns.map (·.2.mc_rid) :=
          updateKey_map_snd p.mcp_conns _ incReq (fun c0 => c0.mc_rid)
            (fun c0 => rfl)
        rw [← Option.some.inj h]
        refine ⟨?_, ?_, ?_, ?_, ?_, hWF.fb_time_iff, ?_, ?_,
          Or.inl hfbnone, ?_, ?_, hWF.deleted_ok, ?_, ?_,
          hWF.release_log_eq⟩
        · show ((updateKey p.mcp_conns _ incReq).map (·.1)).Nodup
          rw [keys_updateKey]
          exact hWF.keys_nodup
        · intro e he
          rcases mem_updateKey_cases he with ⟨he1, _⟩ | ⟨c0, hc0, rfl⟩
          · exact hWF.key_field e he1
          · exact hWF.key_field (_, c0) hc0
        · intro j hj
          by_cases hjk : j = p.mcp_avail.getD (pick % p.mcp_avail.length) 0
          · rw [hjk]
            simp only [stateOf]
            show ((lookupKey (updateKey p.mcp_conns _ incReq) _).map
              (·.mc_state)) = some ConnState.MC_S_AVAIL
            rw [lookupKey_updateKey_self, hl]
            simp [incReq, hcs]
          · have := hWF.avail_state j hj
            simp only [stateOf] at this ⊢
            show ((lookupKey (updateKey p.mcp_conns _ incReq) j).map
              (·.mc_state)) = some ConnState.MC_S_AVAIL
            rw [lookupKey_updateKey_ne _ _ incReq j hjk]
            exact this
        · intro e he hes
          rcases mem_updateKey_cases he with ⟨he1, _⟩ | ⟨c0, hc0, rfl⟩
          · exact hWF.state_avail e he1 hes
          · exact hWF.state_avail (_, c0) hc0 hes
        · intro e he
          rcases mem_updateKey_cases he with ⟨he1, _⟩ | ⟨c0, hc0, rfl⟩
          · exact hWF.no_deleted e he1
          · exact hWF.no_deleted (_, c0) hc0
        · intro j hj
          rw [mem_option_toList] at hj
          have : p.mcp_conn_fallback = some j := hj
          rw [hfbnone] at this
          exact Option.noConfusion this
        · intro e he hes
          rcases mem_updateKey_cases he with ⟨he1, _⟩ | ⟨c0, hc0, rfl⟩
          · exact hWF.state_fb e he1 hes
          · exact hWF.state_fb (_, c0) hc0 hes
        · intro e he hes
          rcases mem_updateKey_cases he with ⟨he1, _⟩ | ⟨c0, hc0, rfl⟩
          · exact hWF.drain_pos e he1 hes
          · exact Nat.succ_pos _
        · intro e he hes
          rcases mem_updateKey_cases he with ⟨he1, _⟩ | ⟨c0, hc0, rfl⟩
          · exact hWF.drained_flag e he1 hes
          · exact hWF.drained_flag (_, c0) hc0 hes
        · show ((updateKey p.mcp_conns _ incReq).map (·.2.mc_rid) ++
            deletedRids p).Nodup
          rw [hmr]
          exact hWF.rid_nodup
        · show ∀ r ∈ (updateKey p.mcp_conns _ incReq).map (·.2.mc_rid) ++
            deletedRids p, r < p.mcp_next_rid
          rw [hmr]
          exact hWF.rid_lt
  next hlen2 =>
    have havailnil : p.mcp_avail = [] := by
      rcases List.eq_nil_or_concat p.mcp_avail with h2 | ⟨l, a, h2⟩
      · exact h2
      · rw [h2] at hlen2
        exact absurd (by simp) hlen2
    split at h
    next hfb =>
      -- no fallback either: NoBackendsError
      rw [← Option.some.inj h]
      exact ⟨hWF.keys_nodup, hWF.key_field, hWF.avail_state, hWF.state_avail,
        hWF.no_deleted, hWF.fb_time_iff, hWF.fb_state, hWF.state_fb,
        hWF.fb_avail, hWF.drain_pos, hWF.drained_flag, hWF.deleted_ok,
        hWF.rid_nodup, hWF.rid_lt, hWF.release_log_eq⟩
    next fkey hfb =>
      split at h
      · exact Option.noConfusion h
      next t htt =>
        split at h
        · exact Option.noConfusion h
        next c hl =>
          split at h
          · exact Option.noConfusion h
          next hcs2 =>
            have hcs := not_not.mp hcs2
            split at h
            next hstale =>
              -- fallback too old: it is removed and the allocation fails
              split at h
              · exact Option.noConfusion h
              next p1x heq1 =>
                rcases connFallbackRemove_total p fkey c t hfb htt hl hcs
                    (by rw [havailnil]; simp) hWF.keys_nodup hWF.key_field
                    hWF.avail_state hWF.state_avail hWF.no_deleted
                    hWF.state_fb hWF.drain_pos hWF.drained_flag
                    hWF.deleted_ok hWF.rid_nodup hWF.rid_lt
                    hWF.release_log_eq with ⟨p'', heq'', hwf'', -⟩
                rw [heq''] at heq1
                have hp1x : p1x = p'' := (Option.some.inj heq1).symm
                rw [← Option.some.inj h, hp1x]
                exact ⟨hwf''.keys_nodup, hwf''.key_field, hwf''.avail_state,
                  hwf''.state_avail, hwf''.no_deleted, hwf''.fb_time_iff,
                  hwf''.fb_state, hwf''.state_fb, hwf''.fb_avail,
                  hwf''.drain_pos, hwf''.drained_flag, hwf''.deleted_ok,
                  hwf''.rid_nodup, hwf''.rid_lt, hwf''.release_log_eq⟩
            next hstale =>
              -- the fallback is still fresh: it is allocated
              have hmr : (updateKey p.mcp_conns fkey incReq).map
                  (·.2.mc_rid) = p.mcp_conns.map (·.2.mc_rid) :=
                updateKey_map_snd p.mcp_conns fkey incReq
                  (fun c0 => c0.mc_rid) (fun c0 => rfl)
              rw [← Option.some.inj h]
              refine ⟨?_, ?_, ?_, ?_, ?_, hWF.fb_time_iff, ?_, ?_,
                Or.inr havailnil, ?_, ?_, hWF.deleted_ok, ?_, ?_,
                hWF.release_log_eq⟩
              · show ((updateKey p.mcp_conns fkey incReq).map (·.1)).Nodup
                rw [keys_updateKey]
                exact hWF.keys_nodup
              · intro e he
                rcases mem_updateKey_cases he with ⟨he1, _⟩ | ⟨c0, hc0, rfl⟩
                · exact hWF.key_field e he1
                · exact hWF.key_field (fkey, c0) hc0
              · intro j hj
                rw [show ({ p with
                    mcp_conns := updateKey p.mcp_conns fkey incReq,
                    mcp_nalloc_fallback := p.mcp_nalloc_fallback + 1,
                    mcp_nalloc_ok := p.mcp_nalloc_ok + 1 } :
                    BorayConnectionPool).mcp_avail = p.mcp_avail from rfl,
                  havailnil] at hj
                exact absurd hj (by simp)
              · intro e he hes
                rcases mem_updateKey_cases he with ⟨he1, _⟩ | ⟨c0, hc0, rfl⟩
                · exact hWF.state_avail e he1 hes
                · exact hWF.state_avail (fkey, c0) hc0 hes
              · intro e he
                rcases mem_updateKey_cases he with ⟨he1, _⟩ | ⟨c0, hc0, rfl⟩
                · exact hWF.no_deleted e he1
                · exact hWF.no_deleted (fkey, c0) hc0
              · intro j hj
                rw [mem_option_toList] at hj
                have hjf : p.mcp_conn_fallback = some j := hj
                rw [hfb] at hjf
                have : j = fkey := (Option.some.inj hjf).symm
                rw [this]
                simp only [stateOf]
                show ((lookupKey (updateKey p.mcp_conns fkey incReq)
                  fkey).map (·.mc_state)) = some ConnState.MC_S_FALLBACK
                rw [lookupKey_updateKey_self, hl]
                simp [incReq, hcs]
              · intro e he hes
                rcases mem_updateKey_cases he with ⟨he1, _⟩ | ⟨c0, hc0, rfl⟩
                · exact hWF.state_fb e he1 hes
                · exact hWF.state_fb (fkey, c0) hc0 hes
              · intro e he hes
                rcases mem_updateKey_cases he with ⟨he1, _⟩ | ⟨c0, hc0, rfl⟩
                · exact hWF.drain_pos e he1 hes
                · exact Nat.succ_pos _
              · intro e he hes
                rcases mem_updateKey_cases he with ⟨he1, _⟩ | ⟨c0, hc0, rfl⟩
                · exact hWF.drained_flag e he1 hes
                · exact hWF.drained_flag (fkey, c0) hc0 hes
              · show ((updateKey p.mcp_conns fkey incReq).map (·.2.mc_rid) ++
                  deletedRids p).Nodup
                rw [hmr]
                exact hWF.rid_nodup
              · show ∀ r ∈ (updateKey p.mcp_conns fkey incReq).map
                  (·.2.mc_rid) ++ deletedRids p, r < p.mcp_next_rid
                rw [hmr]
                exact hWF.rid_lt

theorem connRelease_WF (p : BorayConnectionPool)
    (a : BorayConnectionAllocation)
    (pr : BorayConnectionPool × BorayConnectionAllocation) (hWF : PoolWF p)
    (h : connRelease p a = some pr) : PoolWF pr.1 := by
  rw [connRelease] at h
  split at h
  · exact Option.noConfusion h
  next hrel =>
    split at h
    · exact Option.noConfusion h
    next c hl =>
      split at h
      · exact Option.noConfusion h
      next hn0 =>
        simp only [] at h
        have hcmem : (a.mca_key, c) ∈ p.mcp_conns := lookupKey_mem hl
        have hmr : (updateKey p.mcp_conns a.mca_key decReq).map
            (·.2.mc_rid) = p.mcp_conns.map (·.2.mc_rid) :=
          updateKey_map_snd p.mcp_conns a.mca_key decReq
            (fun c0 => c0.mc_rid) (fun c0 => rfl)
        have hknd1 : ((updateKey p.mcp_conns a.mca_key decReq).map
            (·.1)).Nodup := by
          rw [keys_updateKey]
          exact hWF.keys_nodup
        have hkey1 : ∀ e ∈ updateKey p.mcp_conns a.mca_key decReq,
            e.2.mc_key = e.1 := by
          intro e he
          rcases mem_updateKey_cases he with ⟨he1, _⟩ | ⟨c0, hc0, rfl⟩
          · exact hWF.key_field e he1
          · exact hWF.key_field (a.mca_key, c0) hc0
        have hsa1 : ∀ e ∈ updateKey p.mcp_conns a.mca_key decReq,
            e.2.mc_state = ConnState.MC_S_AVAIL → e.1 ∈ p.mcp_avail := by
          intro e he hes
          rcases mem_updateKey_cases he with ⟨he1, _⟩ | ⟨c0, hc0, rfl⟩
          · exact hWF.state_avail e he1 hes
          · exact hWF.state_avail (a.mca_key, c0) hc0 hes
        have hndel1 : ∀ e ∈ updateKey p.mcp_conns a.mca_key decReq,
            e.2.mc_state ≠ ConnState.MC_S_DELETED := by
          intro e he
          rcases mem_updateKey_cases he with ⟨he1, _⟩ | ⟨c0, hc0, rfl⟩
          · exact hWF.no_deleted e he1
          · exact hWF.no_deleted (a.mca_key, c0) hc0
        have hsf1 : ∀ e ∈ updateKey p.mcp_conns a.mca_key decReq,
            e.2.mc_state = ConnState.MC_S_FALLBACK →
            p.mcp_conn_fallback = some e.1 := by
          intro e he hes
          rcases mem_updateKey_cases he with ⟨he1, _⟩ | ⟨c0, hc0, rfl⟩
          · exact hWF.state_fb e he1 hes
          · exact hWF.state_fb (a.mca_key, c0) hc0 hes
        have hdf1 : ∀ e ∈ updateKey p.mcp_conns a.mca_key decReq,
            e.2.mc_state = ConnState.MC_S_DRAIN →
            e.2.mc_ever_drained = true := by
          intro e he hes
          rcases mem_updateKey_cases he with ⟨he1, _⟩ | ⟨c0, hc0, rfl⟩
          · exact hWF.drained_flag e he1 hes
          · exact hWF.drained_flag (a.mca_key, c0) hc0 hes
        have hrnd1 : ((updateKey p.mcp_conns a.mca_key decReq).map
            (·.2.mc_rid) ++ deletedRids p).Nodup := by
          rw [hmr]
          exact hWF.rid_nodup
        have hrlt1 : ∀ r ∈ (updateKey p.mcp_conns a.mca_key decReq).map
            (·.2.mc_rid) ++ deletedRids p, r < p.mcp_next_rid := by
          rw [hmr]
          exact hWF.rid_lt
        have hc0c : ∀ c0, (a.mca_key, c0) ∈ p.mcp_conns → c0 = c := by
          intro c0 hc0
          have := mem_lookupKey_nodup hWF.keys_nodup hc0
          rw [hl] at this
          exact (Option.some.inj this).symm
        split at h
        next hcsA =>
          -- the record is still available
          split at h
          next hkav =>
            rw [← Option.some.inj h]
            refine ⟨hknd1, hkey1, ?_, hsa1, hndel1, hWF.fb_time_iff, ?_,
              hsf1, hWF.fb_avail, ?_, hdf1, hWF.deleted_ok, hrnd1, hrlt1,
              hWF.release_log_eq⟩
            · intro j hj
              by_cases hjk : j = a.mca_key
              · rw [hjk]
                simp only [stateOf]
                show ((lookupKey (updateKey p.mcp_conns a.mca_key decReq)
                  a.mca_key).map (·.mc_state)) = some ConnState.MC_S_AVAIL
                rw [lookupKey_updateKey_self, hl]
                simp [decReq, hcsA]
              · have := hWF.avail_state j hj
                simp only [stateOf] at this ⊢
                show ((lookupKey (updateKey p.mcp_conns a.mca_key decReq)
                  j).map (·.mc_state)) = some ConnState.MC_S_AVAIL
                rw [lookupKey_updateKey_ne _ _ decReq j hjk]
                exact this
            · intro j hj
              rw [mem_option_toList] at hj
              have hjf : p.mcp_conn_fallback = some j := hj
              by_cases hjk : j = a.mca_key
              · have := hWF.fb_state j (mem_option_toList.mpr hjf)
                rcases stateOf_eq_some_iff.mp this with ⟨c', hc', hcs'⟩
                rw [hjk, hl] at hc'
                have : c' = c := (Option.some.inj hc').symm
                rw [this, hcsA] at hcs'
                exact absurd hcs' (by simp)
              · have := hWF.fb_state j (mem_option_toList.mpr hjf)
                simp only [stateOf] at this ⊢
                show ((lookupKey (updateKey p.mcp_conns a.mca_key decReq)
                  j).map (·.mc_state)) = some ConnState.MC_S_FALLBACK
                rw [lookupKey_updateKey_ne _ _ decReq j hjk]
                exact this
            · intro e he hes
              rcases mem_updateKey_cases he with ⟨he1, _⟩ | ⟨c0, hc0, rfl⟩
              · exact hWF.drain_pos e he1 hes
              · have hcc := hc0c c0 hc0
                rw [hcc] at hes
                have : c.mc_state = ConnState.MC_S_DRAIN := hes
                rw [hcsA] at this
                exact absurd this (by simp)
          · exact Option.noConfusion h
        next hcsNA =>
          split at h
          · exact Option.noConfusion h
          next hkav =>
            split at h
            next hdrfb =>
              split at h
              next hdel0 =>
                -- the drained record has quiesced: it is deleted
                rcases Option.map_eq_some'.mp h with ⟨p2, hp2, hpr⟩
                have hl1 : lookupKey (updateKey p.mcp_conns a.mca_key decReq)
                    a.mca_key = some (decReq c) := by
                  rw [lookupKey_updateKey_self, hl]
                  rfl
                have hfb1 : p.mcp_conn_fallback ≠ some a.mca_key := by
                  intro hf
                  have := hWF.fb_state a.mca_key (mem_option_toList.mpr hf)
                  rcases stateOf_eq_some_iff.mp this with ⟨c', hc', hcs'⟩
                  rw [hl] at hc'
                  have : c' = c := (Option.some.inj hc').symm
                  rw [this, hdel0.1] at hcs'
                  exact absurd hcs' (by simp)
                have hed : (decReq c).mc_ever_drained = true :=
                  hWF.drained_flag (a.mca_key, c) hcmem hdel0.1
                have havs1 : ∀ j ∈ p.mcp_avail,
                    (lookupKey (updateKey p.mcp_conns a.mca_key decReq)
                      j).map (·.mc_state) = some ConnState.MC_S_AVAIL := by
                  intro j hj
                  have hjk : j ≠ a.mca_key := fun he => hkav (he ▸ hj)
                  rw [lookupKey_updateKey_ne _ _ decReq j hjk]
                  exact hWF.avail_state j hj
                have hfbs1 : ∀ j ∈ p.mcp_conn_fallback.toList,
                    (lookupKey (updateKey p.mcp_conns a.mca_key decReq)
                      j).map (·.mc_state) = some ConnState.MC_S_FALLBACK := by
                  intro j hj
                  rw [mem_option_toList] at hj
                  have hjk : j ≠ a.mca_key := fun he => hfb1 (he ▸ hj)
                  rw [lookupKey_updateKey_ne _ _ decReq j hjk]
                  exact hWF.fb_state j (mem_option_toList.mpr hj)
                have hdp1 : ∀ e ∈ updateKey p.mcp_conns a.mca_key decReq,
                    e.1 ≠ a.mca_key →
                    e.2.mc_state = ConnState.MC_S_DRAIN →
                    0 < e.2.mc_nreqs := by
                  intro e he hne hes
                  rcases mem_updateKey_cases he with ⟨he1, _⟩ | ⟨c0, hc0, rfl⟩
                  · exact hWF.drain_pos e he1 hes
                  · exact absurd rfl hne
                have hwf2 := connDelete_WF { p with
                    mcp_conns := updateKey p.mcp_conns a.mca_key decReq,
                    mcp_nreleased := p.mcp_nreleased + 1 } a.mca_key
                  (decReq c) hl1 hdel0.2 hed hkav hfb1 hknd1 hkey1 havs1
                  hsa1 hndel1 hWF.fb_time_iff hfbs1 hsf1 hWF.fb_avail hdp1
                  hdf1 hWF.deleted_ok hrnd1 hrlt1 hWF.release_log_eq
                have heq2 := connDelete_eq { p with
                    mcp_conns := updateKey p.mcp_conns a.mca_key decReq,
                    mcp_nreleased := p.mcp_nreleased + 1 } a.mca_key
                  (decReq c) hl1 hdel0.1 hdel0.2 hkav hfb1
                rw [heq2] at hp2
                rw [← hpr]
                show PoolWF p2
                rw [← Option.some.inj hp2]
                exact hwf2
              next hnodel =>
                -- the record still has outstanding requests
                rw [← Option.some.inj h]
                refine ⟨hknd1, hkey1, ?_, hsa1, hndel1, hWF.fb_time_iff, ?_,
                  hsf1, hWF.fb_avail, ?_, hdf1, hWF.deleted_ok, hrnd1,
                  hrlt1, hWF.release_log_eq⟩
                · intro j hj
                  have hjk : j ≠ a.mca_key := fun he => hkav (he ▸ hj)
                  have := hWF.avail_state j hj
                  simp only [stateOf] at this ⊢
                  show ((lookupKey (updateKey p.mcp_conns a.mca_key decReq)
                    j).map (·.mc_state)) = some ConnState.MC_S_AVAIL
                  rw [lookupKey_updateKey_ne _ _ decReq j hjk]
                  exact this
                · intro j hj
                  rw [mem_option_toList] at hj
                  have hjf : p.mcp_conn_fallback = some j := hj
                  by_cases hjk : j = a.mca_key
                  · have := hWF.fb_state j (mem_option_toList.mpr hjf)
                    rcases stateOf_eq_some_iff.mp this with ⟨c', hc', hcs'⟩
                    rw [hjk, hl] at hc'
                    have hcc : c' = c := (Option.some.inj hc').symm
                    simp only [stateOf]
                    rw [hjk]
                    show ((lookupKey (updateKey p.mcp_conns a.mca_key decReq)
                      a.mca_key).map (·.mc_state)) =
                      some ConnState.MC_S_FALLBACK
                    rw [lookupKey_updateKey_self, hl]
                    rw [hcc] at hcs'
                    simp [decReq, hcs']
                  · have := hWF.fb_state j (mem_option_toList.mpr hjf)
                    simp only [stateOf] at this ⊢
                    show ((lookupKey (updateKey p.mcp_conns a.mca_key decReq)
                      j).map (·.mc_state)) = some ConnState.MC_S_FALLBACK
                    rw [lookupKey_updateKey_ne _ _ decReq j hjk]
                    exact this
                · intro e he hes
                  rcases mem_updateKey_cases he with ⟨he1, _⟩ | ⟨c0, hc0, rfl⟩
                  · exact hWF.drain_pos e he1 hes
                  · have hcc := hc0c c0 hc0
                    have hdr : c.mc_state = ConnState.MC_S_DRAIN := by
                      rw [← hcc]
                      exact hes
                    have hne : ¬ (c.mc_nreqs - 1 = 0) := by
                      intro hz
                      exact hnodel ⟨hdr, hz⟩
                    show 0 < (decReq c0).mc_nreqs
                    rw [hcc]
                    exact Nat.pos_of_ne_zero hne
            · exact Option.noConfusion h

theorem destroyTransport_WF (p : BorayConnectionPool) (k : Nat)
    (hWF : PoolWF p) : PoolWF (destroyTransport p k) := by
  have hmr : (updateKey p.mcp_conns k destroyMark).map (·.2.mc_rid) =
      p.mcp_conns.map (·.2.mc_rid) :=
    updateKey_map_snd p.mcp_conns k destroyMark (fun c0 => c0.mc_rid)
      (fun c0 => rfl)
  have hst : ∀ j, (lookupKey (updateKey p.mcp_conns k destroyMark) j).map
      (·.mc_state) = (lookupKey p.mcp_conns j).map (·.mc_state) := by
    intro j
    by_cases hjk : j = k
    · rw [hjk, lookupKey_updateKey_self]
      cases lookupKey p.mcp_conns k <;> rfl
    · rw [lookupKey_updateKey_ne _ _ destroyMark j hjk]
  refine ⟨?_, ?_, ?_, ?_, ?_, hWF.fb_time_iff, ?_, ?_, hWF.fb_avail, ?_, ?_,
    hWF.deleted_ok, ?_, ?_, hWF.release_log_eq⟩
  · show ((updateKey p.mcp_conns k destroyMark).map (·.1)).Nodup
    rw [keys_updateKey]
    exact hWF.keys_nodup
  · intro e he
    rcases mem_updateKey_cases he with ⟨he1, _⟩ | ⟨c0, hc0, rfl⟩
    · exact hWF.key_field e he1
    · exact hWF.key_field (k, c0) hc0
  · intro j hj
    show ((lookupKey (updateKey p.mcp_conns k destroyMark) j).map
      (·.mc_state)) = some ConnState.MC_S_AVAIL
    rw [hst j]
    exact hWF.avail_state j hj
  · intro e he hes
    rcases mem_updateKey_cases he with ⟨he1, _⟩ | ⟨c0, hc0, rfl⟩
    · exact hWF.state_avail e he1 hes
    · exact hWF.state_avail (k, c0) hc0 hes
  · intro e he
    rcases mem_updateKey_cases he with ⟨he1, _⟩ | ⟨c0, hc0, rfl⟩
    · exact hWF.no_deleted e he1
    · exact hWF.no_deleted (k, c0) hc0
  · intro j hj
    show ((lookupKey (updateKey p.mcp_conns k destroyMark) j).map
      (·.mc_state)) = some ConnState.MC_S_FALLBACK
    rw [hst j]
    exact hWF.fb_state j hj
  · intro e he hes
    rcases mem_updateKey_cases he with ⟨he1, _⟩ | ⟨c0, hc0, rfl⟩
    · exact hWF.state_fb e he1 hes
    · exact hWF.state_fb (k, c0) hc0 hes
  · intro e he hes
    rcases mem_updateKey_cases he with ⟨he1, _⟩ | ⟨c0, hc0, rfl⟩
    · exact hWF.drain_pos e he1 hes
    · exact hWF.drain_pos (k, c0) hc0 hes
  · intro e he hes
    rcases mem_updateKey_cases he with ⟨he1, _⟩ | ⟨c0, hc0, rfl⟩
    · exact hWF.drained_flag e he1 hes
    · exact hWF.drained_flag (k, c0) hc0 hes
  · show ((updateKey p.mcp_conns k destroyMark).map (·.2.mc_rid) ++
      deletedRids p).Nodup
    rw [hmr]
    exact hWF.rid_nodup
  · show ∀ r ∈ (updateKey p.mcp_conns k destroyMark).map (·.2.mc_rid) ++
      deletedRids p, r < p.mcp_next_rid
    rw [hmr]
    exact hWF.rid_lt

theorem applyEvent_WF (p : BorayConnectionPool) (e : PoolEvent)
    (p' : BorayConnectionPool) (hWF : PoolWF p)
    (h : applyEvent p e = some p') : PoolWF p' := by
  cases e with
  | added k d => exact connAdd_WF p k d p' hWF h
  | removed k now => exact connRetire_WF p k now p' hWF h
  | alloc pick now =>
    rcases Option.map_eq_some'.mp h with ⟨pr, hpr, hp'⟩
    rw [← hp']
    exact connAlloc_WF p pick now pr hWF hpr
  | release k =>
    rcases Option.map_eq_some'.mp h with ⟨pr, hpr, hp'⟩
    rw [← hp']
    exact connRelease_WF p _ pr hWF hpr
  | destroy k =>
    rw [← Option.some.inj h]
    exact destroyTransport_WF p k hWF

theorem initPool_WF : PoolWF initPool := by
  refine ⟨?_, ?_, ?_, ?_, ?_, ?_, ?_, ?_, ?_, ?_, ?_, ?_, ?_, ?_, ?_⟩ <;>
    simp [initPool, poolKeys, liveRids, deletedRids]

theorem runEvents_WF :
    ∀ (evs : List PoolEvent) (p p' : BorayConnectionPool), PoolWF p →
      runEvents p evs = some p' → PoolWF p' := by
  intro evs
  induction evs with
  | nil =>
    intro p p' hWF h
    rw [runEvents] at h
    exact (Option.some.inj h) ▸ hWF
  | cons e rest ih =>
    intro p p' hWF h
    rw [runEvents] at h
    split at h
    · exact Option.noConfusion h
    next p1 h1 =>
      exact ih p1 p' (applyEvent_WF p e p1 hWF h1) h

/-!
Claim theorems.
-/

/-- C1: for every sequence of pool events (cueball `added`/`removed`
interleaved with allocations, releases and transport destructions) applied
to the fresh pool, at most one record is in `MC_S_FALLBACK` state, and the
`mcp_conn_fallback`/`mcp_conn_fallback_time` pair is non-null exactly when
such a record exists. -/
theorem boray_c1_fallback_invariant (evs : List PoolEvent)
    (p : BorayConnectionPool) (h : runEvents initPool evs = some p) :
    fallbackCount p ≤ 1 ∧
      ((p.mcp_conn_fallback ≠ none ∧ p.mcp_conn_fallback_time ≠ none) ↔
        ∃ e ∈ p.mcp_conns, e.2.mc_state = ConnState.MC_S_FALLBACK) := by
  have hWF := runEvents_WF evs initPool p initPool_WF h
  exact ⟨fallbackCount_le_one p hWF, fb_pair_iff p hWF⟩

/-- C1 witness: the invariant holds after adding connection 1 and then
removing it as the last connection (so that a fallback record exists). -/
theorem boray_c1_fallback_invariant_witness :
    runEvents initPool evsFallback = some poolFallback ∧
      (fallbackCount poolFallback ≤ 1 ∧
        ((poolFallback.mcp_conn_fallback ≠ none ∧
          poolFallback.mcp_conn_fallback_time ≠ none) ↔
          ∃ e ∈ poolFallback.mcp_conns,
            e.2.mc_state = ConnState.MC_S_FALLBACK)) :=
  ⟨by decide,
    boray_c1_fallback_invariant evsFallback poolFallback (by decide)⟩

/-- C3: in every pool reachable from the fresh pool, no live record sits in
`MC_S_DRAIN` with a zero outstanding count (deletion fires the moment the
count reaches zero in that state); every deleted record went through
`MC_S_DRAIN`, had outstanding count zero, is marked `MC_S_DELETED` and is no
longer among the live records; and `mc_hdl.release()` was invoked exactly
once per deleted record and for nothing else. -/
theorem boray_c3_deletion (evs : List PoolEvent) (p : BorayConnectionPool)
    (h : runEvents initPool evs = some p) :
    (∀ e ∈ p.mcp_conns,
      e.2.mc_state = ConnState.MC_S_DRAIN → 0 < e.2.mc_nreqs) ∧
    (∀ c ∈ p.mcp_deleted_conns,
      c.mc_ever_drained = true ∧ c.mc_nreqs = 0 ∧
      c.mc_state = ConnState.MC_S_DELETED ∧ c.mc_rid ∉ liveRids p) ∧
    p.mcp_release_log = deletedRids p ∧
    p.mcp_release_log.Nodup := by
  have hWF := runEvents_WF evs initPool p initPool_WF h
  refine ⟨hWF.drain_pos, ?_, hWF.release_log_eq, ?_⟩
  · intro c hc
    obtain ⟨h1, h2, h3⟩ := hWF.deleted_ok c hc
    refine ⟨h3, h2, h1, ?_⟩
    intro hmem
    have hd : c.mc_rid ∈ deletedRids p := List.mem_map.mpr ⟨c, hc, rfl⟩
    have hnd := hWF.rid_nodup
    rw [List.nodup_append] at hnd
    exact hnd.2.2 hmem hd
  · rw [hWF.release_log_eq]
    have hnd := hWF.rid_nodup
    rw [List.nodup_append] at hnd
    exact hnd.2.1

/-- C3 witness: after two connections are added and the first is removed,
that record is drained and (having no outstanding requests) deleted, and
its release handle was invoked exactly once. -/
theorem boray_c3_deletion_witness :
    runEvents initPool evsDrainDelete = some poolDrainDelete ∧
      ((∀ e ∈ poolDrainDelete.mcp_conns,
        e.2.mc_state = ConnState.MC_S_DRAIN → 0 < e.2.mc_nreqs) ∧
      (∀ c ∈ poolDrainDelete.mcp_deleted_conns,
        c.mc_ever_drained = true ∧ c.mc_nreqs = 0 ∧
        c.mc_state = ConnState.MC_S_DELETED ∧
        c.mc_rid ∉ liveRids poolDrainDelete) ∧
      poolDrainDelete.mcp_release_log = deletedRids poolDrainDelete ∧
      poolDrainDelete.mcp_release_log.Nodup) :=
  ⟨by decide, boray_c3_deletion evsDrainDelete poolDrainDelete (by decide)⟩

/-- C10: there is a reachable pool state (one connection added, then removed
as the last connection so it became the fallback, then its transport
destroyed by the transport collaborator) in which `connAlloc`, called within
the 15000ms staleness window, succeeds and hands out the fallback connection
even though its transport reports itself destroyed - the fallback allocation
path checks only the fallback's age, never the `destroyed` flag. -/
theorem boray_c10_destroyed_fallback_allocated :
    (poolDestroyedFallback.map (fun p => p.mcp_conn_fallback)) =
      some (some 1) ∧
    (poolDestroyedFallback.bind (fun p => destroyedOf p 1)) = some true ∧
    (allocDestroyedRes.map (fun pr => allocResultKey pr.2)) =
      some (some 1) ∧
    (allocDestroyedRes.bind (fun pr => destroyedOf pr.1 1)) = some true ∧
    100 - 0 < BorayFallbackMaxTime := by decide

/-- C2: when cueball retires connection `k` (present with record `c`),
`connRetire` drains it - appending `c` to the drain log - exactly when
other available connections remain after removing `k`, or fallback mode is
disabled, or `k`'s transport is already destroyed; otherwise `k` becomes
the fallback: its state turns `MC_S_FALLBACK`, `mcp_conn_fallback` points
at it, `mcp_conn_fallback_time` records the current time, and it is not
drained. -/
theorem boray_c2_retire_branches (p p' : BorayConnectionPool) (k now : Nat)
    (c : BorayConnection)
    (hc : lookupKey p.mcp_conns k = some c)
    (h : connRetire p k now = some p') :
    (drainCond p k c ↔ p'.mcp_drain_log = p.mcp_drain_log ++ [c.mc_rid]) ∧
    (¬ drainCond p k c →
      stateOf p' k = some ConnState.MC_S_FALLBACK ∧
      p'.mcp_conn_fallback = some k ∧
      p'.mcp_conn_fallback_time = some now ∧
      p'.mcp_drain_log = p.mcp_drain_log) := by
  rw [connRetire] at h
  split at h
  · exact Option.noConfusion h
  · split at h
    · exact Option.noConfusion h
    · next c2 hl =>
      rw [hc] at hl
      have hcc : c2 = c := (Option.some.inj hl).symm
      subst hcc
      split at h
      · exact Option.noConfusion h
      · simp only [] at h
        split at h
        · next hcond =>
          obtain ⟨c3, hl3, hdr⟩ := connDrain_logs _ _ _ h
          have hl3' : lookupKey p.mcp_conns k = some c3 := hl3
          rw [hc] at hl3'
          have hc3 : c3 = c2 := (Option.some.inj hl3').symm
          subst hc3
          have hdc : drainCond p k c3 := hcond
          constructor
          · exact iff_of_true hdc (by rw [hdr])
          · intro hnc
            exact absurd hdc hnc
        · next hcond =>
          have hdc : ¬ drainCond p k c2 := hcond
          split at h
          · exact Option.noConfusion h
          · split at h
            · exact Option.noConfusion h
            · obtain rfl := Option.some.inj h
              constructor
              · apply iff_of_false hdc
                intro heq
                have hlen := congrArg List.length heq
                simp at hlen
              · intro _
                refine ⟨?_, rfl, rfl, rfl⟩
                simp only [stateOf]
                have hup :
                    lookupKey (updateKey p.mcp_conns k fallbackMark) k =
                      (lookupKey p.mcp_conns k).map fallbackMark :=
                  lookupKey_updateKey_self p.mcp_conns k fallbackMark
                rw [hup, hc]
                rfl

/-- C2 witness: with two connections available, retiring connection 1
leaves connection 2 available, so the drain branch is taken. -/
theorem boray_c2_retire_branches_witness :
    lookupKey poolTwoConns.mcp_conns 1 = some retireTwoRec ∧
    connRetire poolTwoConns 1 5 = some retireTwoRes ∧
    ((drainCond poolTwoConns 1 retireTwoRec ↔
      retireTwoRes.mcp_drain_log =
        poolTwoConns.mcp_drain_log ++ [retireTwoRec.mc_rid]) ∧
    (¬ drainCond poolTwoConns 1 retireTwoRec →
      stateOf retireTwoRes 1 = some ConnState.MC_S_FALLBACK ∧
      retireTwoRes.mcp_conn_fallback = some 1 ∧
      retireTwoRes.mcp_conn_fallback_time = some 5 ∧
      retireTwoRes.mcp_drain_log = poolTwoConns.mcp_drain_log)) :=
  ⟨by decide, by decide,
    boray_c2_retire_branches poolTwoConns retireTwoRes 1 5 retireTwoRec
      (by decide) (by decide)⟩

/-- C4 counterexample: the staleness check of `connAlloc` (`lib/pool.js`
line 213) is strict, so at an age of exactly 15000ms - which is not
strictly less than 15000ms - the fallback connection is still allocated
successfully, contradicting the claim that allocation succeeds only when
the age is strictly less than 15000ms. -/
theorem boray_c4_counterexample :
    poolFallback.mcp_conn_fallback_time = some 0 ∧
    ¬ (15000 - 0 < BorayFallbackMaxTime) ∧
    (connAlloc poolFallback 0 15000).map (fun pr => allocResultKey pr.2) =
      some (some 1) := by decide

/-- C4 (amended): with no available connections and a fallback `k` recorded
at time `t`, `connAlloc` at time `now` succeeds with `k` - bumping its
outstanding count - exactly when the fallback's age `now - t` is at most
15000ms (`BorayFallbackMaxTime`); when the age strictly exceeds 15000ms the
fallback is evicted (drained, the fallback pointer cleared) and the
allocation fails with `NoBackendsError`. -/
theorem boray_c4_fallback_staleness (p : BorayConnectionPool)
    (k t pick now : Nat) (c : BorayConnection) (hWF : PoolWF p)
    (hav : p.mcp_avail = [])
    (hf : p.mcp_conn_fallback = some k)
    (ht : p.mcp_conn_fallback_time = some t)
    (hc : lookupKey p.mcp_conns k = some c) :
    (now - t ≤ BorayFallbackMaxTime →
      ∃ p', connAlloc p pick now = some (p',
          AllocResult.ok { mca_key := k, mca_released := false }) ∧
        nreqsOf p' k = some (c.mc_nreqs + 1)) ∧
    (BorayFallbackMaxTime < now - t →
      ∃ p', connAlloc p pick now = some (p', AllocResult.noBackends) ∧
        p'.mcp_conn_fallback = none ∧
        p'.mcp_conn_fallback_time = none ∧
        p'.mcp_drain_log = p.mcp_drain_log ++ [c.mc_rid]) := by
  have hcs : c.mc_state = ConnState.MC_S_FALLBACK := by
    have hmem : k ∈ p.mcp_conn_fallback.toList := by
      rw [hf]; exact List.mem_singleton.mpr rfl
    have hst := hWF.fb_state k hmem
    simp only [stateOf, hc, Option.map_some'] at hst
    exact Option.some.inj hst
  have hlen : ¬ 0 < p.mcp_avail.length := by rw [hav]; simp
  constructor
  · intro hfresh
    have hnf : ¬ (now - t > BorayFallbackMaxTime) := by omega
    refine ⟨{ p with
        mcp_conns := updateKey p.mcp_conns k incReq,
        mcp_nalloc_fallback := p.mcp_nalloc_fallback + 1,
        mcp_nalloc_ok := p.mcp_nalloc_ok + 1 }, ?_, ?_⟩
    · rw [connAlloc, if_neg hlen]
      simp only [hf, ht, hc, hcs]
      rw [if_neg (show ¬ (ConnState.MC_S_FALLBACK ≠ ConnState.MC_S_FALLBACK)
        from fun hh => hh rfl)]
      rw [if_neg hnf]
    · simp only [nreqsOf]
      have hup :
          lookupKey (updateKey p.mcp_conns k incReq) k =
            (lookupKey p.mcp_conns k).map incReq :=
        lookupKey_updateKey_self p.mcp_conns k incReq
      show (lookupKey (updateKey p.mcp_conns k incReq) k).map
          (·.mc_nreqs) = some (c.mc_nreqs + 1)
      rw [hup, hc]
      rfl
  · intro hstale
    have hfav : k ∉ p.mcp_avail := by rw [hav]; exact List.not_mem_nil k
    obtain ⟨p1, heqFR, hwf1, hav1, hfb1, hfbt1, hen1, hnr1, hdr1, hz1, hp1⟩ :=
      connFallbackRemove_total p k c t hf ht hc hcs hfav
        hWF.keys_nodup hWF.key_field hWF.avail_state hWF.state_avail
        hWF.no_deleted hWF.state_fb hWF.drain_pos hWF.drained_flag
        hWF.deleted_ok hWF.rid_nodup hWF.rid_lt hWF.release_log_eq
    have hgt : now - t > BorayFallbackMaxTime := hstale
    refine ⟨{ p1 with mcp_nalloc_fail := p1.mcp_nalloc_fail + 1 },
      ?_, hfb1, hfbt1, hdr1⟩
    rw [connAlloc, if_neg hlen]
    simp only [hf, ht, hc, hcs]
    rw [if_neg (show ¬ (ConnState.MC_S_FALLBACK ≠ ConnState.MC_S_FALLBACK)
      from fun hh => hh rfl)]
    rw [if_pos hgt, heqFR]

/-- C4 witness: at the boundary age of exactly 15000ms the fresh branch of
the amended claim applies to the concrete fallback pool. -/
theorem boray_c4_fallback_staleness_witness :
    poolFallback.mcp_avail = [] ∧
    poolFallback.mcp_conn_fallback = some 1 ∧
    poolFallback.mcp_conn_fallback_time = some 0 ∧
    lookupKey poolFallback.mcp_conns 1 = some connFallbackRec ∧
    ((15000 - 0 ≤ BorayFallbackMaxTime →
      ∃ p', connAlloc poolFallback 0 15000 = some (p',
          AllocResult.ok { mca_key := 1, mca_released := false }) ∧
        nreqsOf p' 1 = some (connFallbackRec.mc_nreqs + 1)) ∧
    (BorayFallbackMaxTime < 15000 - 0 →
      ∃ p', connAlloc poolFallback 0 15000 = some (p',
          AllocResult.noBackends) ∧
        p'.mcp_conn_fallback = none ∧
        p'.mcp_conn_fallback_time = none ∧
        p'.mcp_drain_log =
          poolFallback.mcp_drain_log ++ [connFallbackRec.mc_rid])) :=
  ⟨by decide, by decide, by decide, by decide,
    boray_c4_fallback_staleness poolFallback 1 0 0 15000 connFallbackRec
      (runEvents_WF evsFallback initPool poolFallback initPool_WF (by decide))
      (by decide) (by decide) (by decide) (by decide)⟩

/-- C5: `connAdd` always removes an existing fallback, no matter its age:
adding a fresh connection `k` while `f` (with record `cf`) is the fallback
recorded at any time `t` installs `k` as available, clears the fallback
pointer and its timestamp, and drains `f` - deleting it at once if it has
no outstanding requests, else leaving it in `MC_S_DRAIN`. -/
theorem boray_c5_add_drains_fallback (p : BorayConnectionPool)
    (k f t : Nat) (cf : BorayConnection) (d : Bool)
    (hWF : PoolWF p)
    (hf : p.mcp_conn_fallback = some f)
    (_ht : p.mcp_conn_fallback_time = some t)
    (hcf : lookupKey p.mcp_conns f = some cf)
    (hk : lookupKey p.mcp_conns k = none) :
    ∃ p', connAdd p k d = some p' ∧
      stateOf p' k = some ConnState.MC_S_AVAIL ∧
      k ∈ p'.mcp_avail ∧
      p'.mcp_conn_fallback = none ∧
      p'.mcp_conn_fallback_time = none ∧
      p'.mcp_drain_log = p.mcp_drain_log ++ [cf.mc_rid] ∧
      (cf.mc_nreqs = 0 → stateOf p' f = none ∧
        cf.mc_rid ∈ p'.mcp_release_log) ∧
      (cf.mc_nreqs ≠ 0 → stateOf p' f = some ConnState.MC_S_DRAIN ∧
        p'.mcp_release_log = p.mcp_release_log) := by
  obtain ⟨p', heq, hwf, hs, hm, hfb, hfbt, himp⟩ := connAdd_total p k d hWF hk
  obtain ⟨hdr, hz, hp⟩ := himp f cf hf hcf
  exact ⟨p', heq, hs, hm, hfb, hfbt, hdr, hz, hp⟩

/-- C5 witness: adding connection 2 to the concrete pool whose fallback is
connection 1 (recorded at time 0) drains and deletes the fallback. -/
theorem boray_c5_add_drains_fallback_witness :
    poolFallback.mcp_conn_fallback = some 1 ∧
    poolFallback.mcp_conn_fallback_time = some 0 ∧
    lookupKey poolFallback.mcp_conns 1 = some connFallbackRec ∧
    lookupKey poolFallback.mcp_conns 2 = none ∧
    (∃ p', connAdd poolFallback 2 false = some p' ∧
      stateOf p' 2 = some ConnState.MC_S_AVAIL ∧
      2 ∈ p'.mcp_avail ∧
      p'.mcp_conn_fallback = none ∧
      p'.mcp_conn_fallback_time = none ∧
      p'.mcp_drain_log = poolFallback.mcp_drain_log ++ [connFallbackRec.mc_rid] ∧
      (connFallbackRec.mc_nreqs = 0 → stateOf p' 1 = none ∧
        connFallbackRec.mc_rid ∈ p'.mcp_release_log) ∧
      (connFallbackRec.mc_nreqs ≠ 0 → stateOf p' 1 = some ConnState.MC_S_DRAIN ∧
        p'.mcp_release_log = poolFallback.mcp_release_log)) :=
  ⟨by decide, by decide, by decide, by decide,
    boray_c5_add_drains_fallback poolFallback 2 1 0 connFallbackRec false
      (runEvents_WF evsFallback initPool poolFallback initPool_WF (by decide))
      (by decide) (by decide) (by decide) (by decide)⟩

theorem connRelease_avail_spec (q : BorayConnectionPool) (kx : Nat)
    (cq : BorayConnection)
    (hl : lookupKey q.mcp_conns kx = some cq)
    (hnz : cq.mc_nreqs ≠ 0)
    (hst : cq.mc_state = ConnState.MC_S_AVAIL)
    (hmem : kx ∈ q.mcp_avail) :
    connRelease q { mca_key := kx, mca_released := false } =
      some ({ q with
          mcp_conns := updateKey q.mcp_conns kx decReq,
          mcp_nreleased := q.mcp_nreleased + 1 },
        { mca_key := kx, mca_released := true }) := by
  rw [connRelease]
  simp only [hl, hst, hnz]
  simp [hmem]

theorem connRelease_fb_spec (q : BorayConnectionPool) (kx : Nat)
    (cq : BorayConnection)
    (hl : lookupKey q.mcp_conns kx = some cq)
    (hnz : cq.mc_nreqs ≠ 0)
    (hst : cq.mc_state = ConnState.MC_S_FALLBACK)
    (hnmem : kx ∉ q.mcp_avail) :
    connRelease q { mca_key := kx, mca_released := false } =
      some ({ q with
          mcp_conns := updateKey q.mcp_conns kx decReq,
          mcp_nreleased := q.mcp_nreleased + 1 },
        { mca_key := kx, mca_released := true }) := by
  rw [connRelease]
  simp only [hl, hst, hnz]
  simp [hnmem]

/-- C6: whenever `connAlloc` succeeds, the allocated record's outstanding
count (`mc_nreqs`) is incremented by exactly one; an immediately following
`connRelease` on the returned handle succeeds and restores the count to its
prior value; and a second `connRelease` on the same (now released) handle
hits the fatal `mca_released` assertion (`lib/pool.js` line 249), modelled
as `none`. -/
theorem boray_c6_alloc_release (p p1 : BorayConnectionPool)
    (pick now : Nat) (a : BorayConnectionAllocation)
    (h : connAlloc p pick now = some (p1, AllocResult.ok a)) :
    nreqsOf p1 a.mca_key = (nreqsOf p a.mca_key).map (· + 1) ∧
    ∃ p2 a1, connRelease p1 a = some (p2, a1) ∧
      nreqsOf p2 a.mca_key = nreqsOf p a.mca_key ∧
      connRelease p2 a1 = none := by
  rw [connAlloc] at h
  split at h
  · next hlen =>
    simp only [] at h
    split at h
    · exact Option.noConfusion h
    · next c hl =>
      split at h
      · exact Option.noConfusion h
      · next hst =>
        have hstA : c.mc_state = ConnState.MC_S_AVAIL := not_not.mp hst
        have hkmem := getD_mod_mem p.mcp_avail pick hlen
        generalize hkx : p.mcp_avail.getD (pick % p.mcp_avail.length) 0 = kx
          at h hl hkmem
        simp only [Option.some.injEq, Prod.mk.injEq, AllocResult.ok.injEq]
          at h
        obtain ⟨hp, ha⟩ := h
        subst ha
        have hconns : p1.mcp_conns = updateKey p.mcp_conns kx incReq := by
          rw [← hp]
        have havail : p1.mcp_avail = p.mcp_avail := by
          rw [← hp]
        have hlP : lookupKey p1.mcp_conns kx = some (incReq c) := by
          rw [hconns, lookupKey_updateKey_self, hl]
          rfl
        have hnz : (incReq c).mc_nreqs ≠ 0 := Nat.succ_ne_zero _
        have hstP : (incReq c).mc_state = ConnState.MC_S_AVAIL := hstA
        have hmemP : kx ∈ p1.mcp_avail := by
          rw [havail]
          exact hkmem
        constructor
        · show nreqsOf p1 kx = (nreqsOf p kx).map (· + 1)
          simp only [nreqsOf]
          rw [hlP, hl]
          rfl
        · refine ⟨_, _,
            connRelease_avail_spec p1 kx (incReq c) hlP hnz hstP hmemP,
            ?_, rfl⟩
          show (lookupKey (updateKey p1.mcp_conns kx decReq) kx).map
            (·.mc_nreqs) = (lookupKey p.mcp_conns kx).map (·.mc_nreqs)
          rw [lookupKey_updateKey_self, hlP, hl]
          simp [decReq, incReq]
  · next hlen =>
    have hav : p.mcp_avail = [] :=
      List.length_eq_zero.mp (Nat.eq_zero_of_not_pos hlen)
    split at h
    · simp at h
    · next fkey hfb =>
      split at h
      · exact Option.noConfusion h
      · split at h
        · exact Option.noConfusion h
        · next c hl =>
          split at h
          · exact Option.noConfusion h
          · next hst =>
            have hstF : c.mc_state = ConnState.MC_S_FALLBACK := not_not.mp hst
            split at h
            · split at h
              · exact Option.noConfusion h
              · simp at h
            · simp only [Option.some.injEq, Prod.mk.injEq,
                AllocResult.ok.injEq] at h
              obtain ⟨hp, ha⟩ := h
              subst ha
              have hconns : p1.mcp_conns =
                  updateKey p.mcp_conns fkey incReq := by
                rw [← hp]
              have havail : p1.mcp_avail = p.mcp_avail := by
                rw [← hp]
              have hlP : lookupKey p1.mcp_conns fkey = some (incReq c) := by
                rw [hconns, lookupKey_updateKey_self, hl]
                rfl
              have hnz : (incReq c).mc_nreqs ≠ 0 := Nat.succ_ne_zero _
              have hstP : (incReq c).mc_state = ConnState.MC_S_FALLBACK := hstF
              have hnmem : fkey ∉ p1.mcp_avail := by
                rw [havail, hav]
                exact List.not_mem_nil fkey
              constructor
              · show nreqsOf p1 fkey = (nreqsOf p fkey).map (· + 1)
                simp only [nreqsOf]
                rw [hlP, hl]
                rfl
              · refine ⟨_, _,
                  connRelease_fb_spec p1 fkey (incReq c) hlP hnz hstP hnmem,
                  ?_, rfl⟩
                show (lookupKey (updateKey p1.mcp_conns fkey decReq)
                    fkey).map (·.mc_nreqs) =
                  (lookupKey p.mcp_conns fkey).map (·.mc_nreqs)
                rw [lookupKey_updateKey_self, hlP, hl]
                simp [decReq, incReq]

/-- C6 witness: allocating from the concrete one-connection pool and
releasing the returned handle round-trips the outstanding count, and a
second release faults. -/
theorem boray_c6_alloc_release_witness :
    connAlloc poolOneConn 0 0 =
      some (allocOneRes.1,
        AllocResult.ok { mca_key := 1, mca_released := false }) ∧
    (nreqsOf allocOneRes.1 1 = (nreqsOf poolOneConn 1).map (· + 1) ∧
    ∃ p2 a1, connRelease allocOneRes.1
        { mca_key := 1, mca_released := false } = some (p2, a1) ∧
      nreqsOf p2 1 = nreqsOf poolOneConn 1 ∧
      connRelease p2 a1 = none) :=
  ⟨by decide,
    boray_c6_alloc_release poolOneConn allocOneRes.1 0 0
      { mca_key := 1, mca_released := false } (by decide)⟩

/-- C7: once `close()` has been invoked (the close state is no longer
`BORAY_CS_OPEN`), `ctxCreateForCallback` returns a null context without
touching the pool and schedules the user callback asynchronously (via
`setImmediate`, modelled by the `scheduledCalls` queue) with the
client-closed error; `ctxCreateForEmitter` likewise returns a null context
and leaves the client entirely unchanged. -/
theorem boray_c7_post_close (c : BorayClient) (pick now : Nat)
    (h : c.closeState ≠ BorayCloseState.BORAY_CS_OPEN) :
    ctxCreateForCallback c pick now =
      some ({ c with
        scheduledCalls :=
          c.scheduledCalls ++ [SchedCallbackErr.clientClosed] }, none) ∧
    ctxCreateForEmitter c pick now = some (c, none) := by
  constructor
  · rw [ctxCreateForCallback, if_pos h]
  · rw [ctxCreateForEmitter, if_pos h]

/-- C7 witness: context creation on the concrete closed client. -/
theorem boray_c7_post_close_witness :
    clientAfterClose.closeState ≠ BorayCloseState.BORAY_CS_OPEN ∧
    (ctxCreateForCallback clientAfterClose 0 0 =
      some ({ clientAfterClose with
        scheduledCalls := clientAfterClose.scheduledCalls ++
          [SchedCallbackErr.clientClosed] }, none) ∧
    ctxCreateForEmitter clientAfterClose 0 0 =
      some (clientAfterClose, none)) :=
  ⟨by decide, boray_c7_post_close clientAfterClose 0 0 (by decide)⟩

theorem ctxRelease_finiRuns (c1 : BorayClient) (id : Nat) (c2 : BorayClient)
    (hcs : c1.closeState = BorayCloseState.BORAY_CS_CLOSING)
    (h : ctxRelease c1 id = some c2) :
    c2.closeFiniRuns =
      c1.closeFiniRuns + (if c1.nactive = 1 then 1 else 0) := by
  rw [ctxRelease] at h
  split at h
  · exact Option.noConfusion h
  · next hn0 =>
    split at h
    · exact Option.noConfusion h
    · split at h
      · exact Option.noConfusion h
      · simp only [] at h
        split at h
        · next hcond =>
          rw [closeFini] at h
          split at h
          · exact Option.noConfusion h
          · split at h
            · exact Option.noConfusion h
            · split at h
              · exact Option.noConfusion h
              · obtain rfl := Option.some.inj h
                have h1 : c1.nactive - 1 = 0 := hcond.1
                have hone : c1.nactive = 1 := by omega
                rw [if_pos hone]
        · next hcond =>
          obtain rfl := Option.some.inj h
          have h1 : ¬ (c1.nactive - 1 = 0) := by
            intro hz
            exact hcond ⟨hz, hcs⟩
          have hne : ¬ (c1.nactive = 1) := by omega
          rw [if_neg hne]
          rfl

theorem close_closing_noop (x : BorayClient)
    (hcs : x.closeState = BorayCloseState.BORAY_CS_CLOSING) :
    close x = some x := by
  have hcnd : x.closeState ≠ BorayCloseState.BORAY_CS_OPEN := by
    rw [hcs]
    intro hh
    exact BorayCloseState.noConfusion hh
  rw [close, if_pos hcnd]

/-- C8: `close()` is idempotent-guarded: a second `close()` is a no-op (it
returns the same state, never faults, and does not run finalization again).
When `close()` is called on an open client with no outstanding contexts,
finalization is only scheduled (asynchronously), not yet run; with
outstanding contexts nothing is scheduled or run at close time.  In every
case, a subsequent successful `ctxRelease` runs `closeFini` exactly once
precisely when it releases the last active context. -/
theorem boray_c8_close_idempotent (c c1 : BorayClient)
    (h : close c = some c1) :
    close c1 = some c1 ∧
    (c.closeState = BorayCloseState.BORAY_CS_OPEN → c.nactive = 0 →
      c1.finiScheduled = true ∧ c1.closeFiniRuns = c.closeFiniRuns) ∧
    (c.closeState = BorayCloseState.BORAY_CS_OPEN → 0 < c.nactive →
      c1.finiScheduled = c.finiScheduled ∧
      c1.closeFiniRuns = c.closeFiniRuns) ∧
    (∀ id c2, ctxRelease c1 id = some c2 →
      c2.closeFiniRuns =
        c1.closeFiniRuns + (if c1.nactive = 1 then 1 else 0)) := by
  rw [close] at h
  split at h
  · next hno =>
    obtain rfl := Option.some.inj h
    have hcs : c.closeState = BorayCloseState.BORAY_CS_CLOSING := by
      cases hx : c.closeState
      · exact absurd hx hno
      · rfl
    refine ⟨?_, ?_, ?_, ?_⟩
    · rw [close, if_pos hno]
    · intro hopen _
      exact absurd hopen hno
    · intro hopen _
      exact absurd hopen hno
    · intro id c2 hrel
      exact ctxRelease_finiRuns c id c2 hcs hrel
  · next hopen' =>
    simp only [] at h
    split at h
    · exact Option.noConfusion h
    · next pool1 hfd =>
      split at h
      · next hz =>
        obtain rfl := Option.some.inj h
        refine ⟨?_, ?_, ?_, ?_⟩
        · exact close_closing_noop _ rfl
        · intro _ _
          exact ⟨rfl, rfl⟩
        · intro _ hpos
          have hz' : c.nactive = 0 := hz
          omega
        · intro id c2 hrel
          exact ctxRelease_finiRuns _ id c2 rfl hrel
      · next hnz =>
        obtain rfl := Option.some.inj h
        refine ⟨?_, ?_, ?_, ?_⟩
        · exact close_closing_noop _ rfl
        · intro _ hz0
          have hnz' : ¬ (c.nactive = 0) := hnz
          exact absurd hz0 hnz'
        · intro _ _
          exact ⟨rfl, rfl⟩
        · intro id c2 hrel
          exact ctxRelease_finiRuns _ id c2 rfl hrel

/-- C8 witness: closing the concrete open client with one outstanding
context defers finalization; releasing that context then runs it once. -/
theorem boray_c8_close_idempotent_witness :
    close clientOpenOne = some clientClosedRes ∧
    (close clientClosedRes = some clientClosedRes ∧
    (clientOpenOne.closeState = BorayCloseState.BORAY_CS_OPEN →
      clientOpenOne.nactive = 0 →
      clientClosedRes.finiScheduled = true ∧
      clientClosedRes.closeFiniRuns = clientOpenOne.closeFiniRuns) ∧
    (clientOpenOne.closeState = BorayCloseState.BORAY_CS_OPEN →
      0 < clientOpenOne.nactive →
      clientClosedRes.finiScheduled = clientOpenOne.finiScheduled ∧
      clientClosedRes.closeFiniRuns = clientOpenOne.closeFiniRuns) ∧
    (∀ id c2, ctxRelease clientClosedRes id = some c2 →
      c2.closeFiniRuns = clientClosedRes.closeFiniRuns +
        (if clientClosedRes.nactive = 1 then 1 else 0))) :=
  ⟨by decide, boray_c8_close_idempotent clientOpenOne clientClosedRes
    (by decide)⟩

/-- C9 counterexample: in the emitter convention, `listBuckets` completion
(`lib/buckets.js` lines 269-284) emits `end` to the original caller first
and only afterwards emits the internal done event that triggers
`ctxRelease` via `releaseWhenDone`, so on the concrete client the release
does NOT precede the caller's done notification, refuting the claim for
the event-emitter calling convention. -/
theorem boray_c9_counterexample :
    (listBucketsComplete clientOpenOne 5 false).map
      (fun r => (r.2, releasedBeforeNotice r.2)) =
      some ([RpcNotice.callerEnd, RpcNotice.ctxReleased], false) := by
  decide

/-- C9 (amended): in the callback convention, the `makeReleaseCb` wrapper
releases the RPC context before invoking the user callback; but in the
emitter convention (`listBuckets`), the `error`/`end` event is delivered to
the original caller before the internal done event runs the release, so
there the release comes after the caller's notification. -/
theorem boray_c9_release_ordering (c c1 c2 : BorayClient) (id : Nat)
    (err : Bool) (tr1 tr2 : List RpcNotice)
    (h1 : makeReleaseCbComplete c id = some (c1, tr1))
    (h2 : listBucketsComplete c id err = some (c2, tr2)) :
    (tr1 = [RpcNotice.ctxReleased, RpcNotice.callerCallback] ∧
      releasedBeforeNotice tr1 = true) ∧
    (tr2 = [if err then RpcNotice.callerError else RpcNotice.callerEnd,
        RpcNotice.ctxReleased] ∧
      releasedBeforeNotice tr2 = false) := by
  rw [makeReleaseCbComplete] at h1
  rw [listBucketsComplete] at h2
  rcases Option.map_eq_some'.mp h1 with ⟨d1, hd1, he1⟩
  rcases Option.map_eq_some'.mp h2 with ⟨d2, hd2, he2⟩
  simp only [Prod.mk.injEq] at he1 he2
  obtain ⟨-, ht1⟩ := he1
  obtain ⟨-, ht2⟩ := he2
  subst ht1
  subst ht2
  refine ⟨⟨rfl, by decide⟩, rfl, ?_⟩
  cases err
  · decide
  · decide

/-- C9 witness: both completion conventions on the concrete client with
outstanding context 5. -/
theorem boray_c9_release_ordering_witness :
    makeReleaseCbComplete clientOpenOne 5 =
      some (((makeReleaseCbComplete clientOpenOne 5).getD
          (clientOpenOne, [])).1,
        [RpcNotice.ctxReleased, RpcNotice.callerCallback]) ∧
    listBucketsComplete clientOpenOne 5 false =
      some (((listBucketsComplete clientOpenOne 5 false).getD
          (clientOpenOne, [])).1,
        [RpcNotice.callerEnd, RpcNotice.ctxReleased]) ∧
    (([RpcNotice.ctxReleased, RpcNotice.callerCallback] =
        [RpcNotice.ctxReleased, RpcNotice.callerCallback] ∧
      releasedBeforeNotice
        [RpcNotice.ctxReleased, RpcNotice.callerCallback] = true) ∧
    ([RpcNotice.callerEnd, RpcNotice.ctxReleased] =
        [if false then RpcNotice.callerError else RpcNotice.callerEnd,
          RpcNotice.ctxReleased] ∧
      releasedBeforeNotice
        [RpcNotice.callerEnd, RpcNotice.ctxReleased] = false)) :=
  ⟨by decide, by decide,
    boray_c9_release_ordering clientOpenOne
      ((makeReleaseCbComplete clientOpenOne 5).getD (clientOpenOne, [])).1
      ((listBucketsComplete clientOpenOne 5 false).getD (clientOpenOne, [])).1
      5 false
      [RpcNotice.ctxReleased, RpcNotice.callerCallback]
      [RpcNotice.callerEnd, RpcNotice.ctxReleased]
      (by decide) (by decide)⟩
